import Mathlib

/-!
Verification development for the CDLOD terrain system
(src/cdlod.ts and the terrain vertex shader).

The TypeScript code is shallowly embedded: machine floating-point numbers
are modelled as rationals, Babylon vectors and bounding boxes as records of
rationals, and the quadtree of Chunk objects as a mutual inductive type
(a chunk together with its list of children).  Frustum-plane extraction is
performed by the rendering engine (an external collaborator), so a camera
is modelled as its world position together with an opaque boolean frustum
test on bounding boxes.  Euclidean distances are compared through their
squares so that every definition stays executable over the rationals.
-/

namespace CDLODSpec

/-- Three-dimensional vector with rational coordinates, modelling
Babylon.js Vector3. -/
structure Vector3 where
  x : ℚ
  y : ℚ
  z : ℚ
deriving DecidableEq

/-- Axis-aligned bounding box given by its minimum and maximum corners,
modelling Babylon.js BoundingBox. -/
structure BoundingBox where
  minimum : Vector3
  maximum : Vector3
deriving DecidableEq

/-- Componentwise midpoint of two vectors, modelling Vector3.Center. -/
def Vector3.center (a b : Vector3) : Vector3 :=
  ⟨(a.x + b.x) / 2, (a.y + b.y) / 2, (a.z + b.z) / 2⟩

/-- Center of a bounding box, modelling BoundingBox.center. -/
def BoundingBox.center (b : BoundingBox) : Vector3 :=
  Vector3.center b.minimum b.maximum

/-- Squared Euclidean distance between two points.  Vector3.Distance in
the source is the square root of this quantity; all comparisons against a
radius are phrased via squares (see sqrtLt). -/
def dist2 (a b : Vector3) : ℚ :=
  (a.x - b.x) ^ 2 + (a.y - b.y) ^ 2 + (a.z - b.z) ^ 2

/-- Comparison sqrt d2 < r for a nonnegative squared distance d2,
expressed without square roots: it holds exactly when r is positive and
d2 < r ^ 2. -/
def sqrtLt (d2 r : ℚ) : Bool :=
  decide (0 < r ∧ d2 < r ^ 2)

/-- Camera model: the world position read by the selection pass, plus the
box-versus-frustum test.  In the source the six planes are extracted from
the camera transformation matrix by the engine (Frustum.GetPlanes) and
tested by BoundingBox.isInFrustum; both live outside the repository, so
the composite test is kept opaque. -/
structure Camera where
  position : Vector3
  inFrustum : BoundingBox → Bool

mutual
/-- Quadtree node, modelling the Chunk class: a bounding box, the stored
lodLevel, and the list of children (empty for leaves, four entries for
internal nodes as produced by buildQuadtree).  The attached mesh and its
bound uniforms are modelled separately as a state function, since they are
the only mutable part of the structure. -/
inductive Chunk : Type where
  | mk (boundingBox : BoundingBox) (lodLevel : ℤ) (children : ChunkList)
/-- List of chunks, as a mutual inductive so that all tree recursions are
structural. -/
inductive ChunkList : Type where
  | nil
  | cons (head : Chunk) (tail : ChunkList)
end

/-- Bounding box of a chunk. -/
def Chunk.boundingBox : Chunk → BoundingBox
  | .mk bb _ _ => bb

/-- Stored LOD level of a chunk. -/
def Chunk.lodLevel : Chunk → ℤ
  | .mk _ l _ => l

/-- Children of a chunk. -/
def Chunk.children : Chunk → ChunkList
  | .mk _ _ cs => cs

/-- Conversion from the mutual-inductive chunk list to an ordinary list. -/
def ChunkList.toList : ChunkList → List Chunk
  | .nil => []
  | .cons c cs => c :: cs.toList

/-- Conversion from an ordinary list of chunks. -/
def ChunkList.ofList : List Chunk → ChunkList
  | [] => .nil
  | c :: cs => .cons c (ChunkList.ofList cs)

mutual
/-- Boolean equality on chunks. -/
def Chunk.beq : Chunk → Chunk → Bool
  | .mk bb l cs, .mk bb2 l2 cs2 =>
      decide (bb = bb2) && decide (l = l2) && ChunkList.beq cs cs2
/-- Boolean equality on chunk lists. -/
def ChunkList.beq : ChunkList → ChunkList → Bool
  | .nil, .nil => true
  | .cons a as, .cons b bs => Chunk.beq a b && ChunkList.beq as bs
  | _, _ => false
end

mutual
/-- Soundness and completeness of Chunk.beq. -/
def Chunk.beq_iff : ∀ a b : Chunk, Chunk.beq a b = true ↔ a = b
  | .mk bb l cs, .mk bb2 l2 cs2 => by
    simp [Chunk.beq, ChunkList.beq_iff cs cs2, and_assoc]
/-- Soundness and completeness of ChunkList.beq. -/
def ChunkList.beq_iff : ∀ a b : ChunkList, ChunkList.beq a b = true ↔ a = b
  | .nil, .nil => by simp [ChunkList.beq]
  | .nil, .cons b bs => by simp [ChunkList.beq]
  | .cons a as, .nil => by simp [ChunkList.beq]
  | .cons a as, .cons b bs => by
    simp [ChunkList.beq, Chunk.beq_iff a b, ChunkList.beq_iff as bs]
end

instance : DecidableEq Chunk :=
  fun a b => decidable_of_iff _ (Chunk.beq_iff a b)

instance : DecidableEq ChunkList :=
  fun a b => decidable_of_iff _ (ChunkList.beq_iff a b)

/-- Four child boxes created by buildQuadtree when splitting a box at its
X/Z midpoint; each child has Y extent [0, terrainHeight], transcribed from
the boxes array in buildQuadtree. -/
def quadrantBoxes (terrainHeight : ℚ) (bb : BoundingBox) : List BoundingBox :=
  let mn := bb.minimum
  let mx := bb.maximum
  let mid := Vector3.center mn mx
  [ ⟨⟨mn.x, 0, mn.z⟩, ⟨mid.x, terrainHeight, mid.z⟩⟩,
    ⟨⟨mid.x, 0, mn.z⟩, ⟨mx.x, terrainHeight, mid.z⟩⟩,
    ⟨⟨mn.x, 0, mid.z⟩, ⟨mid.x, terrainHeight, mx.z⟩⟩,
    ⟨⟨mid.x, 0, mid.z⟩, ⟨mx.x, terrainHeight, mx.z⟩⟩ ]

/-- Fuel-indexed form of buildQuadtree: fuel n corresponds to the integer
level n - 1, so fuel 0 builds the leaf returned by the level < 0 branch
(a Chunk with stored level 0 and no children). -/
def buildQuadtreeAux (terrainHeight : ℚ) : ℕ → BoundingBox → Chunk
  | 0, bb => .mk bb 0 .nil
  | n + 1, bb =>
      .mk bb n (ChunkList.ofList
        ((quadrantBoxes terrainHeight bb).map
          (fun b => buildQuadtreeAux terrainHeight n b)))

/-- Recursive quadtree construction, modelling CDLOD.buildQuadtree: at
level < 0 it returns a childless chunk with stored level 0; otherwise it
splits the box into the four quadrant boxes and recurses with level - 1.
The fuel (level + 1).toNat makes the recursion structural; the two
characterization theorems buildQuadtree_neg and buildQuadtree_nonneg
recover the exact source-level recursion. -/
def buildQuadtree (terrainHeight : ℚ) (bb : BoundingBox) (level : ℤ) : Chunk :=
  buildQuadtreeAux terrainHeight (level + 1).toNat bb

/-- LOD range table computed in the CDLOD constructor:
lodRanges i = minLodDistance * 2 ^ i for i = 0 .. lodLevels - 1. -/
def lodRanges (minLodDistance : ℚ) (lodLevels : ℕ) : List ℚ :=
  (List.range lodLevels).map (fun i => minLodDistance * 2 ^ i)

/-- JavaScript array indexing: ranges[i] is the stored value for an index
inside the array and undefined (None) otherwise, including negative
indices. -/
def jsGet (l : List ℚ) (i : ℤ) : Option ℚ :=
  if h : 0 ≤ i ∧ i.toNat < l.length then some (l.get ⟨i.toNat, h.2⟩) else none

/-- Distance-band test, modelling CDLOD.isChunkWithinLodRange: the
Euclidean distance from the chunk bounding-box center to the camera
position compared against lodRanges[lodLevel].  When the index is out of
bounds the JavaScript comparison distance < undefined is false. -/
def isChunkWithinLodRange (ranges : List ℚ) (chunk : Chunk) (cam : Camera)
    (lodLevel : ℤ) : Bool :=
  match jsGet ranges lodLevel with
  | some r => sqrtLt (dist2 chunk.boundingBox.center cam.position) r
  | none => false

mutual
/-- Selection traversal, modelling CDLOD.traverseAndSelect: prune the
subtree when the frustum test fails; push the chunk and stop when the
distance test fails; otherwise recurse into all children with
lodLevel - 1. -/
def traverseAndSelect (ranges : List ℚ) (cam : Camera) :
    Chunk → ℤ → List Chunk
  | .mk bb lvl cs, lodLevel =>
    if cam.inFrustum bb = false then []
    else if isChunkWithinLodRange ranges (.mk bb lvl cs) cam lodLevel = false
      then [.mk bb lvl cs]
    else traverseChildren ranges cam cs (lodLevel - 1)
/-- Traversal of a child list, modelling the for-loop over chunk.children
that appends each child selection to the draw list. -/
def traverseChildren (ranges : List ℚ) (cam : Camera) :
    ChunkList → ℤ → List Chunk
  | .nil, _ => []
  | .cons c cs, lodLevel =>
      traverseAndSelect ranges cam c lodLevel ++
        traverseChildren ranges cam cs lodLevel
end

/-- Root bounding box built in the CDLOD constructor: a cube centered at
the origin with side terrainSize (its Y extent is NOT [0, terrainHeight]). -/
def rootBoundingBox (terrainSize : ℚ) : BoundingBox :=
  ⟨⟨-(terrainSize * (1/2)), -(terrainSize * (1/2)), -(terrainSize * (1/2))⟩,
   ⟨terrainSize * (1/2), terrainSize * (1/2), terrainSize * (1/2)⟩⟩

/-- Immutable configuration of a CDLOD instance after constructor default
resolution: terrainSize, terrainHeight, minLodDistance (terrainSize / 15
when not supplied) and lodLevels. -/
structure CDLOD where
  terrainSize : ℚ
  terrainHeight : ℚ
  minLodDistance : ℚ
  lodLevels : ℕ

/-- Range table of a CDLOD instance, as computed in the constructor. -/
def CDLOD.ranges (t : CDLOD) : List ℚ :=
  lodRanges t.minLodDistance t.lodLevels

/-- Quadtree root of a CDLOD instance: the constructor calls
buildQuadtree(boundingBox, lodLevels) on the cube-shaped root box. -/
def CDLOD.root (t : CDLOD) : Chunk :=
  buildQuadtree t.terrainHeight (rootBoundingBox t.terrainSize)
    (t.lodLevels : ℤ)

/-- Chunk selection, modelling CDLOD.selectLods: traverse from the root
with starting band index lodLevels - 1. -/
def CDLOD.selectLods (t : CDLOD) (cam : Camera) : List Chunk :=
  traverseAndSelect t.ranges cam t.root ((t.lodLevels : ℤ) - 1)

/-- Default configuration from the constructor defaults: terrainSize 100,
terrainHeight 10, lodLevels 7, and minLodDistance resolved to
terrainSize / 15 since the option is unset. -/
def defaultCDLOD : CDLOD :=
  ⟨100, 10, 100 / 15, 7⟩

mutual
/-- List of every node of a chunk tree (the node itself first, then all
descendants in depth-first order). -/
def Chunk.allNodes : Chunk → List Chunk
  | .mk bb l cs => .mk bb l cs :: ChunkList.allNodes cs
/-- All nodes of every tree in a chunk list. -/
def ChunkList.allNodes : ChunkList → List Chunk
  | .nil => []
  | .cons c cs => c.allNodes ++ ChunkList.allNodes cs
end

mutual
/-- Number of nodes of a chunk tree. -/
def Chunk.countNodes : Chunk → ℕ
  | .mk _ _ cs => 1 + ChunkList.countNodes cs
/-- Total number of nodes of the trees of a chunk list. -/
def ChunkList.countNodes : ChunkList → ℕ
  | .nil => 0
  | .cons c cs => c.countNodes + ChunkList.countNodes cs
end

/-- Length of a chunk list. -/
def ChunkList.length : ChunkList → ℕ
  | .nil => 0
  | .cons _ cs => 1 + cs.length

mutual
/-- Depths (relative to the given node) of every childless node of the
tree. -/
def Chunk.leafDepths : Chunk → List ℕ
  | .mk _ _ .nil => [0]
  | .mk _ _ (.cons c cs) =>
      (ChunkList.leafDepths (.cons c cs)).map (fun d => d + 1)
/-- Concatenated leaf depths of the trees of a chunk list. -/
def ChunkList.leafDepths : ChunkList → List ℕ
  | .nil => []
  | .cons c cs => c.leafDepths ++ ChunkList.leafDepths cs
end

mutual
/-- Check that every node of the tree has exactly 0 or 4 children. -/
def Chunk.childCountOk : Chunk → Bool
  | .mk _ _ cs =>
      (decide (ChunkList.length cs = 0) || decide (ChunkList.length cs = 4)) &&
        ChunkList.childCountOk cs
/-- Check childCountOk on every tree of a chunk list. -/
def ChunkList.childCountOk : ChunkList → Bool
  | .nil => true
  | .cons c cs => Chunk.childCountOk c && ChunkList.childCountOk cs
end

/-- Per-chunk render state: the attached patch instance modelled by the
value of its bound cameraPosition uniform, or none when the chunk holds no
mesh.  In the source this is the chunk.mesh field together with the
uniforms set on its cloned material. -/
def MeshState : Type := Chunk → Option Vector3

/-- Per-chunk mesh update, modelling CDLOD.updateChunkMesh: when the chunk
already holds a mesh nothing happens (the uniforms are NOT refreshed);
when it holds none, a clone is created and its uniforms, in particular
cameraPosition, are bound from the current camera. -/
def updateChunkMesh (cam : Camera) (chunk : Chunk) (st : MeshState) :
    MeshState :=
  match st chunk with
  | some _ => st
  | none => fun d => if d = chunk then some cam.position else st d

/-- Fold of updateChunkMesh over the selected chunks, modelling the loop
in CDLOD.update. -/
def updateMeshes (cam : Camera) (sel : List Chunk) (st : MeshState) :
    MeshState :=
  sel.foldl (fun s c => updateChunkMesh cam c s) st

/-- Disposal pass, modelling CDLOD.disposeUnusedMeshes: every node of the
tree that is not in the render set loses its mesh; other chunks keep their
state. -/
def disposeUnusedMeshes (root : Chunk) (renderSet : List Chunk)
    (st : MeshState) : MeshState :=
  fun d => if d ∈ root.allNodes ∧ d ∉ renderSet then none else st d

/-- Per-frame update, modelling CDLOD.update: select the chunks, update
the mesh of each selected chunk, then dispose meshes of unselected tree
nodes. -/
def CDLOD.update (t : CDLOD) (cam : Camera) (st : MeshState) : MeshState :=
  let chunksToRender := t.selectLods cam
  disposeUnusedMeshes t.root chunksToRender
    (updateMeshes cam chunksToRender st)

/-- Chunks for which updateChunkMesh performs an instance creation during
an update pass: the selected chunks that hold no mesh when the pass
starts. -/
def createdOnUpdate (sel : List Chunk) (st : MeshState) : List Chunk :=
  sel.filter (fun c => (st c).isNone)

/-- Chunks whose instance is destroyed by disposeUnusedMeshes: tree nodes
holding a mesh that are not in the render set. -/
def disposedOnUpdate (root : Chunk) (sel : List Chunk) (st : MeshState) :
    List Chunk :=
  root.allNodes.filter (fun c => (st c).isSome && decide (c ∉ sel))

/-- Size of the statically sized LOD range buffer declared at the top of
the terrain vertex shader. -/
def NUM_LOD_LEVELS : ℕ := 6

/-- Shader-side lookup lodRangesLUT[i]; the GLSL behaviour for an
out-of-bounds index is undefined, and the claims about getMorphValue only
constrain indices that are in bounds, so out-of-bounds reads return an
arbitrary default. -/
def lutGet (lut : List ℚ) (i : ℤ) : ℚ :=
  if h : 0 ≤ i ∧ i.toNat < lut.length then lut.get ⟨i.toNat, h.2⟩ else 0

/-- GLSL clamp(x, lo, hi) = min(max(x, lo), hi). -/
def clampGLSL (x lo hi : ℚ) : ℚ :=
  min (max x lo) hi

/-- Lower band edge used by getMorphValue:
lodRangesLUT[int(lodLvl) - 1] when lodLvl > 0, and 0 otherwise. -/
def morphLow (lut : List ℚ) (lodLvl : ℤ) : ℚ :=
  if 0 < lodLvl then lutGet lut (lodLvl - 1) else 0

/-- Upper band edge used by getMorphValue: lodRangesLUT[int(lodLvl)]. -/
def morphHigh (lut : List ℚ) (lodLvl : ℤ) : ℚ :=
  lutGet lut lodLvl

/-- Morph factor, transcribed from getMorphValue in the terrain vertex
shader: with low and high the band edges, delta = high - low and
factor = (dist - low) / delta, the result is
clamp(factor / 0.3 - 1.0, 0.0, 1.0).  The lodLvl uniform always holds an
integral value (a stored chunk level), so it is modelled as an integer;
0.3 is the rational 3/10. -/
def getMorphValue (lut : List ℚ) (dist : ℚ) (lodLvl : ℤ) : ℚ :=
  let low := morphLow lut lodLvl
  let high := morphHigh lut lodLvl
  let delta := high - low
  let factor := (dist - low) / delta
  clampGLSL (factor / (3 / 10) - 1) 0 1

/-- Closed 3D membership of a point in a bounding box; the intersection
of two boxes is nonempty exactly when some point lies in both. -/
def inBox (p : Vector3) (b : BoundingBox) : Prop :=
  b.minimum.x ≤ p.x ∧ p.x ≤ b.maximum.x ∧
  b.minimum.y ≤ p.y ∧ p.y ≤ b.maximum.y ∧
  b.minimum.z ≤ p.z ∧ p.z ≤ b.maximum.z

/-- Closed membership of a ground point in the X/Z footprint of a box. -/
def inXZ (px pz : ℚ) (b : BoundingBox) : Prop :=
  b.minimum.x ≤ px ∧ px ≤ b.maximum.x ∧ b.minimum.z ≤ pz ∧ pz ≤ b.maximum.z

/-- Membership of a ground point in the open interior of the X/Z
footprint of a box. -/
def strictInXZ (px pz : ℚ) (b : BoundingBox) : Prop :=
  b.minimum.x < px ∧ px < b.maximum.x ∧ b.minimum.z < pz ∧ pz < b.maximum.z

/-- Footprint inclusion: the X/Z extent of the first box is contained in
that of the second. -/
def subXZ (b1 b2 : BoundingBox) : Prop :=
  b2.minimum.x ≤ b1.minimum.x ∧ b1.maximum.x ≤ b2.maximum.x ∧
  b2.minimum.z ≤ b1.minimum.z ∧ b1.maximum.z ≤ b2.maximum.z

/-- Two boxes overlap at most on their boundaries: no point is interior
to the footprints of both. -/
def disjointXZ (b1 b2 : BoundingBox) : Prop :=
  ∀ px pz, strictInXZ px pz b1 → strictInXZ px pz b2 → False

/-- Nondegenerate footprint: positive extent in both X and Z. -/
def strictXZ (b : BoundingBox) : Prop :=
  b.minimum.x < b.maximum.x ∧ b.minimum.z < b.maximum.z

/-- Well-formed footprint: nonnegative extent in both X and Z. -/
def wfXZ (b : BoundingBox) : Prop :=
  b.minimum.x ≤ b.maximum.x ∧ b.minimum.z ≤ b.maximum.z

/-- Reachability of a traversal call site: Visited ranges cam c0 b0 c b
holds when the selection traversal started at chunk c0 with band index b0
performs a recursive call on chunk c with band index b.  A child call is
made exactly when its parent passes the frustum test and lies within its
band range. -/
inductive Visited (ranges : List ℚ) (cam : Camera) (c0 : Chunk) (b0 : ℤ) :
    Chunk → ℤ → Prop where
  | refl : Visited ranges cam c0 b0 c0 b0
  | step (bb : BoundingBox) (lvl : ℤ) (cs : ChunkList)
      (b : ℤ) (child : Chunk) :
      Visited ranges cam c0 b0 (.mk bb lvl cs) b →
      cam.inFrustum bb = true →
      isChunkWithinLodRange ranges (.mk bb lvl cs) cam b = true →
      child ∈ cs.toList →
      Visited ranges cam c0 b0 child (b - 1)

/-- Path from a node to one of its childless descendants, listing every
node on the way (the node itself first). -/
inductive RootPath : Chunk → List Chunk → Prop where
  | leaf (bb : BoundingBox) (l : ℤ) : RootPath (.mk bb l .nil) [.mk bb l .nil]
  | cons (bb : BoundingBox) (l : ℤ) (cs : ChunkList) (child : Chunk)
      (p : List Chunk) :
      child ∈ cs.toList → RootPath child p →
      RootPath (.mk bb l cs) (.mk bb l cs :: p)

/-- Camera far away on the X axis with an all-pass frustum test. -/
def camFar : Camera := ⟨⟨100000, 0, 0⟩, fun _ => true⟩

/-- Camera at the origin with an all-pass frustum test. -/
def camOrigin : Camera := ⟨⟨0, 0, 0⟩, fun _ => true⟩

/-- Camera at x = 10 with an all-pass frustum test. -/
def camTen : Camera := ⟨⟨10, 0, 0⟩, fun _ => true⟩

/-- Camera at x = 11 with an all-pass frustum test. -/
def camEleven : Camera := ⟨⟨11, 0, 0⟩, fun _ => true⟩

/-- Small concrete configuration: terrainSize 4, terrainHeight 1,
minLodDistance 1, one LOD level. -/
def cdlodSmall : CDLOD := ⟨4, 1, 1, 1⟩

/-- Small concrete configuration with a large minimum LOD distance, so a
camera at the origin refines the root into its four children. -/
def cdlodWide : CDLOD := ⟨4, 1, 100, 1⟩

/-- Mesh state with no attached instance anywhere. -/
def stEmpty : MeshState := fun _ => none

theorem ChunkList.toList_ofList (l : List Chunk) :
    (ChunkList.ofList l).toList = l := by
  induction l with
  | nil => rfl
  | cons c cs ih => simp [ChunkList.ofList, ChunkList.toList, ih]

theorem buildQuadtree_neg (th : ℚ) (bb : BoundingBox) (level : ℤ)
    (h : level < 0) : buildQuadtree th bb level = .mk bb 0 .nil := by
  have h0 : (level + 1).toNat = 0 := by omega
  simp [buildQuadtree, h0, buildQuadtreeAux]

theorem buildQuadtree_nonneg (th : ℚ) (bb : BoundingBox) (level : ℤ)
    (h : 0 ≤ level) :
    buildQuadtree th bb level =
      .mk bb level (ChunkList.ofList
        ((quadrantBoxes th bb).map (fun b => buildQuadtree th b (level - 1)))) := by
  have h0 : (level + 1).toNat = level.toNat + 1 := by omega
  have h1 : (level.toNat : ℤ) = level := by omega
  conv_lhs => rw [buildQuadtree, h0, buildQuadtreeAux]
  have h2 : ∀ b : BoundingBox,
      buildQuadtreeAux th level.toNat b = buildQuadtree th b (level - 1) := by
    intro b
    have h3 : (level - 1 + 1).toNat = level.toNat := by omega
    rw [buildQuadtree, h3]
  simp [h1, h2]

theorem boundingBox_buildQuadtree (th : ℚ) (bb : BoundingBox) (level : ℤ) :
    (buildQuadtree th bb level).boundingBox = bb := by
  rcases lt_or_le level 0 with h | h
  · rw [buildQuadtree_neg th bb level h]; rfl
  · rw [buildQuadtree_nonneg th bb level h]; rfl

theorem lodLevel_buildQuadtree (th : ℚ) (bb : BoundingBox) (level : ℤ)
    (h : 0 ≤ level) : (buildQuadtree th bb level).lodLevel = level := by
  rw [buildQuadtree_nonneg th bb level h]; rfl

theorem jsGet_neg (l : List ℚ) (i : ℤ) (h : i < 0) : jsGet l i = none := by
  rw [jsGet, dif_neg]
  intro hc
  omega

theorem lodRanges_length (m : ℚ) (N : ℕ) : (lodRanges m N).length = N := by
  simp [lodRanges]

theorem lodRanges_jsGet (m : ℚ) (N : ℕ) (i : ℤ) (h0 : 0 ≤ i)
    (h1 : i.toNat < N) :
    jsGet (lodRanges m N) i = some (m * 2 ^ i.toNat) := by
  have hlen : i.toNat < (lodRanges m N).length := by
    rw [lodRanges_length]; exact h1
  rw [jsGet, dif_pos ⟨h0, hlen⟩]
  simp [lodRanges, List.get_eq_getElem]

theorem traverse_prune (ranges : List ℚ) (cam : Camera) (c : Chunk) (b : ℤ)
    (hf : cam.inFrustum c.boundingBox = false) :
    traverseAndSelect ranges cam c b = [] := by
  cases c with
  | mk bb lvl cs =>
    rw [Chunk.boundingBox] at hf
    rw [traverseAndSelect, if_pos hf]

theorem traverse_stop (ranges : List ℚ) (cam : Camera) (c : Chunk) (b : ℤ)
    (hf : cam.inFrustum c.boundingBox = true)
    (hw : isChunkWithinLodRange ranges c cam b = false) :
    traverseAndSelect ranges cam c b = [c] := by
  cases c with
  | mk bb lvl cs =>
    rw [Chunk.boundingBox] at hf
    rw [traverseAndSelect, if_neg (by simp [hf]), if_pos hw]

theorem traverse_rec (ranges : List ℚ) (cam : Camera) (c : Chunk) (b : ℤ)
    (hf : cam.inFrustum c.boundingBox = true)
    (hw : isChunkWithinLodRange ranges c cam b = true) :
    traverseAndSelect ranges cam c b =
      traverseChildren ranges cam c.children (b - 1) := by
  cases c with
  | mk bb lvl cs =>
    rw [Chunk.boundingBox] at hf
    rw [traverseAndSelect, if_neg (by simp [hf]), if_neg (by simp [hw]),
      Chunk.children]

/-- C7: for every configured lodLevels = N and minLodDistance m > 0, the
lodRanges table computed at construction has length N, satisfies
range[i] = m * 2 ^ i for all 0 ≤ i < N, and is strictly increasing.  (The
embedding is purely functional, so the table, derived once from the
configuration, is never mutated afterwards.) -/
theorem spec_c7_lod_range_table (m : ℚ) (N : ℕ) (hm : 0 < m) :
    (lodRanges m N).length = N ∧
    (∀ i, i < N → (lodRanges m N)[i]? = some (m * 2 ^ i)) ∧
    (lodRanges m N).Pairwise (fun a b => a < b) := by
  refine ⟨lodRanges_length m N, ?_, ?_⟩
  · intro i hi
    simp [lodRanges, hi]
  · rw [lodRanges, List.pairwise_map]
    have hr : (List.range N).Pairwise (fun a b => a < b) := List.pairwise_lt_range N
    refine hr.imp ?_
    intro i j hij
    have h2 : (2 : ℚ) ^ i < 2 ^ j := by
      apply pow_lt_pow_right₀ (by norm_num) hij
    exact mul_lt_mul_of_pos_left h2 hm

/-- Witness for C7 at the concrete table with minLodDistance 25 and seven
levels. -/
theorem spec_c7_lod_range_table_witness :
    (lodRanges 25 7).Pairwise (fun a b => a < b) :=
  (spec_c7_lod_range_table 25 7 (by norm_num)).2.2

/-- C4: for every distance d and band index L whose table entries are
defined, the shader morph factor getMorphValue d L equals exactly
clamp(((d - low) / (high - low)) / 0.3 - 1.0, 0.0, 1.0) with
low = (L > 0 ? range[L-1] : 0) and high = range[L]. -/
theorem spec_c4_morph_formula_exact (lut : List ℚ) (d : ℚ) (L : ℤ)
    (h0 : 0 ≤ L) (h1 : L.toNat < lut.length) :
    getMorphValue lut d L =
      clampGLSL
        (((d - (if 0 < L then lut.get ⟨(L - 1).toNat, by omega⟩ else 0)) /
            (lut.get ⟨L.toNat, h1⟩ -
              (if 0 < L then lut.get ⟨(L - 1).toNat, by omega⟩ else 0))) /
          (3 / 10) - 1) 0 1 := by
  have hhigh : morphHigh lut L = lut.get ⟨L.toNat, h1⟩ := by
    rw [morphHigh, lutGet, dif_pos ⟨h0, h1⟩]
  have hlow : morphLow lut L =
      if 0 < L then lut.get ⟨(L - 1).toNat, by omega⟩ else 0 := by
    by_cases hp : 0 < L
    · have hc : 0 ≤ L - 1 ∧ (L - 1).toNat < lut.length := ⟨by omega, by omega⟩
      rw [morphLow, if_pos hp, if_pos hp, lutGet, dif_pos hc]
    · rw [morphLow, if_neg hp, if_neg hp]
  rw [getMorphValue, hhigh, hlow]

/-- Witness for C4 at the one-entry table [10], band 0, distance 7. -/
theorem spec_c4_morph_formula_exact_witness :
    getMorphValue [10] 7 0 =
      clampGLSL
        (((7 - (if (0 : ℤ) < 0 then
              ([(10 : ℚ)]).get ⟨((0 : ℤ) - 1).toNat, by simp⟩ else 0)) /
            (([(10 : ℚ)]).get ⟨(0 : ℤ).toNat, by norm_num⟩ -
              (if (0 : ℤ) < 0 then
                ([(10 : ℚ)]).get ⟨((0 : ℤ) - 1).toNat, by simp⟩ else 0))) /
          (3 / 10) - 1) 0 1 :=
  spec_c4_morph_formula_exact [10] 7 0 (by norm_num) (by norm_num)

/-- C3 counterexample: the claim asserts the morph factor is 0 whenever
d ≤ low + 0.7 * (high - low); with the one-entry table [10] and band 0 we
have low = 0, high = 10, and at d = 7 = low + 0.7 * (high - low) the
factor computed by getMorphValue is 1, not 0. -/
theorem spec_c3_counterexample :
    (7 : ℚ) ≤ 0 + (7 / 10) * (morphHigh [10] 0 - 0) ∧
    getMorphValue [10] 7 0 = 1 ∧ (1 : ℚ) ≠ 0 := by
  have hh : morphHigh [10] 0 = 10 := by
    rw [morphHigh, lutGet, dif_pos (by norm_num)]
    rfl
  refine ⟨by rw [hh]; norm_num, ?_, by norm_num⟩
  have hl : morphLow [10] 0 = 0 := by
    rw [morphLow, if_neg (by norm_num)]
  rw [getMorphValue, hh, hl]
  have hx : ((7 : ℚ) - 0) / (10 - 0) / (3 / 10) - 1 = 4 / 3 := by norm_num
  rw [hx, clampGLSL, max_eq_left (by norm_num), min_eq_right (by norm_num)]

/-- C3 amended: for every band whose edges satisfy low < high, the morph
factor is 0 for all d ≤ low + 0.3 * (high - low), equals 1 for all
d ≥ low + 0.6 * (high - low) (hence in particular at d = high), and is
clamped to [0, 1] everywhere; morphing is confined to the slice between
30 percent and 60 percent of the band, not to the outer 30 percent. -/
theorem spec_c3_amended_morph_band (lut : List ℚ) (L : ℤ)
    (hlh : morphLow lut L < morphHigh lut L) :
    (∀ d, d ≤ morphLow lut L + (3 / 10) * (morphHigh lut L - morphLow lut L) →
        getMorphValue lut d L = 0) ∧
    (∀ d, morphLow lut L + (6 / 10) * (morphHigh lut L - morphLow lut L) ≤ d →
        getMorphValue lut d L = 1) ∧
    getMorphValue lut (morphHigh lut L) L = 1 ∧
    (∀ d, 0 ≤ getMorphValue lut d L ∧ getMorphValue lut d L ≤ 1) := by
  set low := morphLow lut L with hlowdef
  set high := morphHigh lut L with hhighdef
  have hδ : 0 < high - low := by linarith
  have hzero : ∀ d, d ≤ low + (3 / 10) * (high - low) →
      getMorphValue lut d L = 0 := by
    intro d hd
    have hfac : (d - low) / (high - low) ≤ 3 / 10 := by
      rw [div_le_iff₀ hδ]
      linarith
    have hx : (d - low) / (high - low) / (3 / 10) - 1 ≤ 0 := by
      have : (d - low) / (high - low) / (3 / 10) ≤ 1 := by
        rw [div_le_one (by norm_num : (0 : ℚ) < 3 / 10)]
        exact hfac
      linarith
    rw [getMorphValue, clampGLSL]
    rw [max_eq_right hx, min_eq_left (by norm_num)]
  have hone : ∀ d, low + (6 / 10) * (high - low) ≤ d →
      getMorphValue lut d L = 1 := by
    intro d hd
    have hfac : 6 / 10 ≤ (d - low) / (high - low) := by
      rw [le_div_iff₀ hδ]
      linarith
    have hx : 1 ≤ (d - low) / (high - low) / (3 / 10) - 1 := by
      have : 2 ≤ (d - low) / (high - low) / (3 / 10) := by
        rw [le_div_iff₀ (by norm_num : (0 : ℚ) < 3 / 10)]
        linarith
      linarith
    rw [getMorphValue, clampGLSL]
    rw [max_eq_left (by linarith), min_eq_right hx]
  refine ⟨hzero, hone, hone high (by linarith), ?_⟩
  intro d
  constructor
  · rw [getMorphValue, clampGLSL]
    exact le_min (le_max_right _ _) (by norm_num)
  · rw [getMorphValue, clampGLSL]
    exact min_le_right _ _

/-- Witness for the amended C3 at the one-entry table [10] and band 0. -/
theorem spec_c3_amended_morph_band_witness :
    getMorphValue [10] (morphHigh [10] 0) 0 = 1 := by
  have hlh : morphLow [10] 0 < morphHigh [10] 0 := by
    rw [morphLow, if_neg (by norm_num), morphHigh, lutGet, dif_pos (by norm_num)]
    norm_num [List.get]
  exact (spec_c3_amended_morph_band [10] 0 hlh).2.2.1

theorem self_mem_allNodes (c : Chunk) : c ∈ c.allNodes := by
  cases c with
  | mk bb l cs => rw [Chunk.allNodes]; exact List.mem_cons_self _ _

theorem mem_allNodes_ofList (l : List Chunk) (x : Chunk) :
    x ∈ ChunkList.allNodes (ChunkList.ofList l) ↔
      ∃ a ∈ l, x ∈ a.allNodes := by
  induction l with
  | nil => simp [ChunkList.ofList, ChunkList.allNodes]
  | cons c cs ih => simp [ChunkList.ofList, ChunkList.allNodes, ih]

theorem quadrantBoxes_y (th : ℚ) (bb : BoundingBox) :
    ∀ q ∈ quadrantBoxes th bb, q.minimum.y = 0 ∧ q.maximum.y = th := by
  intro q hq
  simp only [quadrantBoxes, List.mem_cons, List.not_mem_nil, or_false] at hq
  rcases hq with h | h | h | h <;> subst h <;> exact ⟨rfl, rfl⟩

theorem allNodes_y_extent (th : ℚ) :
    ∀ (n : ℕ) (bb : BoundingBox), bb.minimum.y = 0 → bb.maximum.y = th →
      ∀ c ∈ (buildQuadtreeAux th n bb).allNodes,
        c.boundingBox.minimum.y = 0 ∧ c.boundingBox.maximum.y = th := by
  intro n
  induction n with
  | zero =>
    intro bb h0 h1 c hc
    simp only [buildQuadtreeAux, Chunk.allNodes, ChunkList.allNodes,
      List.mem_singleton] at hc
    subst hc
    exact ⟨h0, h1⟩
  | succ n ih =>
    intro bb h0 h1 c hc
    simp only [buildQuadtreeAux, Chunk.allNodes, List.mem_cons] at hc
    rcases hc with hc | hc
    · subst hc
      exact ⟨h0, h1⟩
    · rw [mem_allNodes_ofList] at hc
      obtain ⟨a, ha, hca⟩ := hc
      rw [List.mem_map] at ha
      obtain ⟨q, hq, rfl⟩ := ha
      obtain ⟨hq0, hq1⟩ := quadrantBoxes_y th bb q hq
      exact ih q hq0 hq1 c hca

/-- C6 counterexample: the claim asserts that every node including the
root has Y extent exactly [0, terrainHeight]; under the default
configuration (terrainSize 100, terrainHeight 10) the root bounding box
has minimum.y = -50, not 0. -/
theorem spec_c6_counterexample :
    defaultCDLOD.root.boundingBox.minimum.y = -50 ∧
    ((-50 : ℚ) ≠ 0) ∧ defaultCDLOD.terrainHeight = 10 := by
  refine ⟨?_, by norm_num, rfl⟩
  rw [show defaultCDLOD.root = buildQuadtree 10 (rootBoundingBox 100) 7
      from rfl, boundingBox_buildQuadtree]
  norm_num [rootBoundingBox]

/-- C6 amended: every node strictly below the root has Y extent exactly
[0, terrainHeight]; the root itself keeps the cube-shaped box of the
constructor with Y extent [-terrainSize/2, terrainSize/2]. -/
theorem spec_c6_amended_y_extent (t : CDLOD) :
    t.root.boundingBox = rootBoundingBox t.terrainSize ∧
    ∀ c, c ∈ ChunkList.allNodes t.root.children →
      c.boundingBox.minimum.y = 0 ∧
        c.boundingBox.maximum.y = t.terrainHeight := by
  constructor
  · rw [CDLOD.root, boundingBox_buildQuadtree]
  · intro c hc
    rw [CDLOD.root,
      buildQuadtree_nonneg _ _ _ (by exact_mod_cast Nat.zero_le _),
      Chunk.children, mem_allNodes_ofList] at hc
    obtain ⟨a, ha, hca⟩ := hc
    rw [List.mem_map] at ha
    obtain ⟨q, hq, rfl⟩ := ha
    obtain ⟨hq0, hq1⟩ := quadrantBoxes_y t.terrainHeight _ q hq
    rw [buildQuadtree] at hca
    exact allNodes_y_extent t.terrainHeight _ q hq0 hq1 c hca

/-- Witness for the amended C6: the first child of the root of the small
configuration has Y extent [0, 1]. -/
theorem spec_c6_amended_y_extent_witness :
    (buildQuadtree 1 ⟨⟨-2, 0, -2⟩, ⟨0, 1, 0⟩⟩ 0).boundingBox.minimum.y = 0 ∧
    (buildQuadtree 1 ⟨⟨-2, 0, -2⟩, ⟨0, 1, 0⟩⟩ 0).boundingBox.maximum.y =
      cdlodSmall.terrainHeight := by
  refine (spec_c6_amended_y_extent cdlodSmall).2 _ ?_
  rw [show cdlodSmall.root = buildQuadtree 1 (rootBoundingBox 4) 1 from rfl,
    buildQuadtree_nonneg _ _ _ (by norm_num), Chunk.children,
    mem_allNodes_ofList]
  refine ⟨buildQuadtree 1 ⟨⟨-2, 0, -2⟩, ⟨0, 1, 0⟩⟩ 0, ?_, self_mem_allNodes _⟩
  rw [List.mem_map]
  refine ⟨⟨⟨-2, 0, -2⟩, ⟨0, 1, 0⟩⟩, ?_, by norm_num⟩
  simp only [quadrantBoxes, rootBoundingBox, Vector3.center, List.mem_cons]
  left
  norm_num

/-- C2: the vertex shader statically sizes lodRangesLUT at
NUM_LOD_LEVELS = 6 entries, while the default configuration pushes a
7-entry range table and selects the root chunk, whose bound lodLevel
uniform is 7; the indices int(lodLevel) = 7 and int(lodLevel) - 1 = 6
used by getMorphValue both exceed the buffer bound, so the claimed
in-bounds property fails under the default configuration. -/
theorem spec_c2_lut_overflow :
    NUM_LOD_LEVELS = 6 ∧
    defaultCDLOD.ranges.length = 7 ∧
    ¬ defaultCDLOD.ranges.length ≤ NUM_LOD_LEVELS ∧
    (defaultCDLOD.selectLods camFar).map Chunk.lodLevel = [7] ∧
    ¬ ((7 : ℤ) < (NUM_LOD_LEVELS : ℤ)) ∧
    ¬ ((7 : ℤ) - 1 < (NUM_LOD_LEVELS : ℤ)) := by
  have hlen : defaultCDLOD.ranges.length = 7 := by
    rw [show defaultCDLOD.ranges = lodRanges (100 / 15) 7 from rfl,
      lodRanges_length]
  have hbb : defaultCDLOD.root.boundingBox = rootBoundingBox 100 := by
    rw [show defaultCDLOD.root = buildQuadtree 10 (rootBoundingBox 100) 7
      from rfl, boundingBox_buildQuadtree]
  have hj : jsGet defaultCDLOD.ranges 6 = some ((100 / 15) * 2 ^ (6 : ℕ)) := by
    rw [show defaultCDLOD.ranges = lodRanges (100 / 15) 7 from rfl]
    have h6 := lodRanges_jsGet (100 / 15) 7 6 (by norm_num) (by norm_num)
    rw [show (6 : ℤ).toNat = 6 from rfl] at h6
    exact h6
  have hw : isChunkWithinLodRange defaultCDLOD.ranges defaultCDLOD.root
      camFar 6 = false := by
    rw [isChunkWithinLodRange, hj, hbb]
    simp only [sqrtLt, decide_eq_false_iff_not]
    norm_num [dist2, rootBoundingBox, BoundingBox.center, Vector3.center,
      camFar, Int.toNat_ofNat]
  have hsel : defaultCDLOD.selectLods camFar = [defaultCDLOD.root] := by
    rw [CDLOD.selectLods,
      show ((defaultCDLOD.lodLevels : ℤ) - 1) = 6 from by norm_num [defaultCDLOD]]
    exact traverse_stop _ _ _ _ rfl hw
  refine ⟨rfl, hlen, by rw [hlen]; norm_num [NUM_LOD_LEVELS], ?_,
    by norm_num [NUM_LOD_LEVELS], by norm_num [NUM_LOD_LEVELS]⟩
  rw [hsel, List.map_singleton,
    show defaultCDLOD.root = buildQuadtree 10 (rootBoundingBox 100) 7
      from rfl,
    lodLevel_buildQuadtree _ _ _ (by norm_num)]

theorem countNodes_buildQuadtreeAux (th : ℚ) :
    ∀ (n : ℕ) (bb : BoundingBox),
      3 * (buildQuadtreeAux th n bb).countNodes = 4 ^ (n + 1) - 1 := by
  intro n
  induction n with
  | zero =>
    intro bb
    simp [buildQuadtreeAux, Chunk.countNodes, ChunkList.countNodes]
  | succ n ih =>
    intro bb
    have hP : 4 ^ (n + 1 + 1) = 4 ^ (n + 1) * 4 := pow_succ 4 (n + 1)
    have h1 : 1 ≤ 4 ^ (n + 1) := Nat.one_le_pow _ _ (by norm_num)
    simp only [buildQuadtreeAux, quadrantBoxes, List.map, Chunk.countNodes,
      ChunkList.ofList, ChunkList.countNodes]
    have e0 := ih ⟨⟨bb.minimum.x, 0, bb.minimum.z⟩,
      ⟨(Vector3.center bb.minimum bb.maximum).x, th,
        (Vector3.center bb.minimum bb.maximum).z⟩⟩
    have e1 := ih ⟨⟨(Vector3.center bb.minimum bb.maximum).x, 0, bb.minimum.z⟩,
      ⟨bb.maximum.x, th, (Vector3.center bb.minimum bb.maximum).z⟩⟩
    have e2 := ih ⟨⟨bb.minimum.x, 0, (Vector3.center bb.minimum bb.maximum).z⟩,
      ⟨(Vector3.center bb.minimum bb.maximum).x, th, bb.maximum.z⟩⟩
    have e3 := ih ⟨⟨(Vector3.center bb.minimum bb.maximum).x, 0,
        (Vector3.center bb.minimum bb.maximum).z⟩,
      ⟨bb.maximum.x, th, bb.maximum.z⟩⟩
    omega

theorem leafDepths_buildQuadtreeAux (th : ℚ) :
    ∀ (n : ℕ) (bb : BoundingBox),
      (buildQuadtreeAux th n bb).leafDepths = List.replicate (4 ^ n) n := by
  intro n
  induction n with
  | zero =>
    intro bb
    simp [buildQuadtreeAux, Chunk.leafDepths]
  | succ n ih =>
    intro bb
    simp only [buildQuadtreeAux, quadrantBoxes, List.map, ChunkList.ofList,
      Chunk.leafDepths, ChunkList.leafDepths, ih, List.append_nil]
    rw [← List.replicate_add, ← List.replicate_add, ← List.replicate_add,
      List.map_replicate]
    have h4 : 4 ^ n + (4 ^ n + (4 ^ n + 4 ^ n)) = 4 ^ (n + 1) := by
      rw [pow_succ]
      ring
    rw [h4]

theorem childCountOk_buildQuadtreeAux (th : ℚ) :
    ∀ (n : ℕ) (bb : BoundingBox),
      (buildQuadtreeAux th n bb).childCountOk = true := by
  intro n
  induction n with
  | zero =>
    intro bb
    simp [buildQuadtreeAux, Chunk.childCountOk, ChunkList.childCountOk,
      ChunkList.length]
  | succ n ih =>
    intro bb
    simp [buildQuadtreeAux, quadrantBoxes, List.map, ChunkList.ofList,
      Chunk.childCountOk, ChunkList.childCountOk, ChunkList.length, ih]

/-- C8: for every depth D, the quadtree built with root level D has
exactly (4 ^ (D + 2) - 1) / 3 nodes, every node has 0 or 4 children, and
its childless nodes appear precisely at depth D + 1: the list of leaf
depths is 4 ^ (D + 1) copies of D + 1. -/
theorem spec_c8_tree_shape (th : ℚ) (bb : BoundingBox) (D : ℕ) :
    (buildQuadtree th bb (D : ℤ)).countNodes = (4 ^ (D + 2) - 1) / 3 ∧
    (buildQuadtree th bb (D : ℤ)).childCountOk = true ∧
    (buildQuadtree th bb (D : ℤ)).leafDepths =
      List.replicate (4 ^ (D + 1)) (D + 1) := by
  have hfuel : ((D : ℤ) + 1).toNat = D + 1 := by omega
  rw [buildQuadtree, hfuel]
  refine ⟨?_, childCountOk_buildQuadtreeAux th _ bb,
    leafDepths_buildQuadtreeAux th _ bb⟩
  have h3 := countNodes_buildQuadtreeAux th (D + 1) bb
  have h1 : 1 ≤ 4 ^ (D + 1 + 1) := Nat.one_le_pow _ _ (by norm_num)
  have h2 : 4 ^ (D + 1 + 1) = 4 ^ (D + 2) := by norm_num
  omega

theorem children_buildQuadtree_ne_nil (th : ℚ) (bb : BoundingBox) (L : ℤ)
    (h : 0 ≤ L) : (buildQuadtree th bb L).children ≠ .nil := by
  rw [buildQuadtree_nonneg _ _ _ h, Chunk.children]
  simp [quadrantBoxes, List.map, ChunkList.ofList]

def mem_traverseChildren_of (ranges : List ℚ) (cam : Camera) :
    ∀ (cs : ChunkList) (child : Chunk) (b : ℤ), child ∈ cs.toList →
      ∀ x, x ∈ traverseAndSelect ranges cam child b →
        x ∈ traverseChildren ranges cam cs b
  | .nil, child, b => by
    intro hmem
    exact absurd hmem (List.not_mem_nil child)
  | .cons a as, child, b => by
    intro hmem x hx
    rw [ChunkList.toList, List.mem_cons] at hmem
    rw [traverseChildren, List.mem_append]
    rcases hmem with h | h
    · subst h
      exact Or.inl hx
    · exact Or.inr (mem_traverseChildren_of ranges cam as child b h x hx)

theorem visited_shape (ranges : List ℚ) (cam : Camera) (th : ℚ)
    (bb0 : BoundingBox) (L0 : ℤ) :
    ∀ c b, Visited ranges cam (buildQuadtree th bb0 L0) (L0 - 1) c b →
      ∃ bb L, c = buildQuadtree th bb L ∧ b = L - 1 := by
  intro c b h
  induction h with
  | refl => exact ⟨bb0, L0, rfl, rfl⟩
  | step bb lvl cs b child hv hf hw hmem ih =>
    obtain ⟨bbp, Lp, hceq, hbeq⟩ := ih
    rcases lt_or_le Lp 0 with hneg | hpos
    · rw [buildQuadtree_neg _ _ _ hneg] at hceq
      injection hceq with h1 h2 h3
      subst h3
      exact absurd hmem (List.not_mem_nil child)
    · rw [buildQuadtree_nonneg _ _ _ hpos] at hceq
      injection hceq with h1 h2 h3
      subst h3
      rw [ChunkList.toList_ofList, List.mem_map] at hmem
      obtain ⟨q, hq, hchild⟩ := hmem
      exact ⟨q, Lp - 1, hchild.symm, by omega⟩

theorem visited_subset (ranges : List ℚ) (cam : Camera) :
    ∀ c0 b0 c b, Visited ranges cam c0 b0 c b →
      ∀ x ∈ traverseAndSelect ranges cam c b,
        x ∈ traverseAndSelect ranges cam c0 b0 := by
  intro c0 b0 c b h
  induction h with
  | refl => exact fun x hx => hx
  | step bb lvl cs b child hv hf hw hmem ih =>
    intro x hx
    apply ih
    rw [traverse_rec _ _ _ _ hf hw, Chunk.children]
    exact mem_traverseChildren_of _ _ _ _ _ hmem _ hx

/-- C5: during the selection traversal, every visited node that passes
the frustum test and either lies at distance at least range[currentBand]
from the camera (for a defined band entry) or is childless (built by the
level < 0 branch) is appended to the draw list, and the recursion stops
there: the traversal of that node returns exactly that node. -/
theorem spec_c5_selection_stop (t : CDLOD) (cam : Camera) (c : Chunk) (b : ℤ)
    (hv : Visited t.ranges cam t.root ((t.lodLevels : ℤ) - 1) c b)
    (hf : cam.inFrustum c.boundingBox = true)
    (hsel : (∃ r, jsGet t.ranges b = some r ∧
        sqrtLt (dist2 c.boundingBox.center cam.position) r = false) ∨
      c.children = .nil) :
    traverseAndSelect t.ranges cam c b = [c] ∧ c ∈ t.selectLods cam := by
  have hv2 : Visited t.ranges cam
      (buildQuadtree t.terrainHeight (rootBoundingBox t.terrainSize)
        (t.lodLevels : ℤ)) ((t.lodLevels : ℤ) - 1) c b := hv
  have hw : isChunkWithinLodRange t.ranges c cam b = false := by
    rcases hsel with ⟨r, hr, hlt⟩ | hnil
    · rw [isChunkWithinLodRange, hr]
      exact hlt
    · obtain ⟨bb, L, rfl, rfl⟩ := visited_shape _ _ _ _ _ _ _ hv2
      have hL : L < 0 := by
        by_contra hge
        push_neg at hge
        exact children_buildQuadtree_ne_nil t.terrainHeight bb L hge hnil
      rw [isChunkWithinLodRange, jsGet_neg _ _ (by omega)]
  refine ⟨traverse_stop _ _ _ _ hf hw, ?_⟩
  have hsub := visited_subset t.ranges cam _ _ _ _ hv
  rw [CDLOD.selectLods]
  apply hsub
  rw [traverse_stop _ _ _ _ hf hw]
  exact List.mem_singleton.mpr rfl

/-- Witness for C5: in the small configuration the root is visited first
with band 0, passes the all-true frustum test, and the camera at x = 10
lies beyond range[0] = 1, so the root is selected and recursion stops. -/
theorem spec_c5_selection_stop_witness :
    traverseAndSelect cdlodSmall.ranges camTen cdlodSmall.root
      ((cdlodSmall.lodLevels : ℤ) - 1) = [cdlodSmall.root] ∧
    cdlodSmall.root ∈ cdlodSmall.selectLods camTen := by
  have hbb : cdlodSmall.root.boundingBox = rootBoundingBox 4 := by
    rw [show cdlodSmall.root = buildQuadtree 1 (rootBoundingBox 4) 1 from rfl,
      boundingBox_buildQuadtree]
  refine spec_c5_selection_stop cdlodSmall camTen cdlodSmall.root _
    Visited.refl (by rw [hbb]; rfl) (Or.inl ⟨1 * 2 ^ 0, ?_, ?_⟩)
  · rw [show cdlodSmall.ranges = lodRanges 1 1 from rfl,
      show ((cdlodSmall.lodLevels : ℤ) - 1) = 0 from by norm_num [cdlodSmall]]
    have h0 := lodRanges_jsGet 1 1 0 (by norm_num) (by norm_num)
    rw [show (0 : ℤ).toNat = 0 from rfl] at h0
    exact h0
  · rw [hbb]
    simp only [sqrtLt, decide_eq_false_iff_not]
    norm_num [dist2, rootBoundingBox, BoundingBox.center, Vector3.center,
      camTen]

theorem updateChunkMesh_other (cam : Camera) (x : Chunk) (st : MeshState)
    (d : Chunk) (hne : d ≠ x) : updateChunkMesh cam x st d = st d := by
  rcases hsx : st x with _ | v
  · rw [updateChunkMesh, hsx]
    exact if_neg hne
  · rw [updateChunkMesh, hsx]

theorem updateChunkMesh_some (cam : Camera) (x : Chunk) (st : MeshState)
    (d : Chunk) (v : Vector3) (h : st d = some v) :
    updateChunkMesh cam x st d = some v := by
  rcases hsx : st x with _ | w
  · by_cases hdx : d = x
    · subst hdx
      rw [h] at hsx
      exact absurd hsx (by simp)
    · rw [updateChunkMesh, hsx]
      show (if d = x then some cam.position else st d) = some v
      rw [if_neg hdx]
      exact h
  · rw [updateChunkMesh, hsx]
    exact h

theorem updateChunkMesh_creates (cam : Camera) (x : Chunk) (st : MeshState)
    (h : st x = none) : updateChunkMesh cam x st x = some cam.position := by
  rw [updateChunkMesh, h]
  show (if x = x then some cam.position else st x) = some cam.position
  rw [if_pos rfl]

theorem updateMeshes_some (cam : Camera) (sel : List Chunk) (st : MeshState)
    (d : Chunk) (v : Vector3) (h : st d = some v) :
    updateMeshes cam sel st d = some v := by
  induction sel generalizing st with
  | nil => exact h
  | cons a as ih =>
    rw [updateMeshes, List.foldl_cons]
    exact ih _ (updateChunkMesh_some cam a st d v h)

theorem updateMeshes_not_mem (cam : Camera) (sel : List Chunk)
    (st : MeshState) (d : Chunk) (h : d ∉ sel) :
    updateMeshes cam sel st d = st d := by
  induction sel generalizing st with
  | nil => rfl
  | cons a as ih =>
    rw [List.mem_cons] at h
    push_neg at h
    rw [updateMeshes, List.foldl_cons]
    have h2 := ih (updateChunkMesh cam a st) h.2
    rw [updateMeshes] at h2
    rw [h2, updateChunkMesh_other cam a st d h.1]

theorem updateMeshes_mem_none (cam : Camera) :
    ∀ (sel : List Chunk) (st : MeshState) (d : Chunk), d ∈ sel →
      st d = none → updateMeshes cam sel st d = some cam.position := by
  intro sel
  induction sel with
  | nil =>
    intro st d hmem h
    exact absurd hmem (List.not_mem_nil d)
  | cons a as ih =>
    intro st d hmem h
    rw [updateMeshes, List.foldl_cons]
    by_cases hda : d = a
    · subst hda
      have hc := updateChunkMesh_creates cam d st h
      exact updateMeshes_some cam as _ d _ hc
    · rcases List.mem_cons.mp hmem with hm | hm
      · exact absurd hm hda
      · have hnone : updateChunkMesh cam a st d = none := by
          rw [updateChunkMesh_other cam a st d hda]
          exact h
        exact ih _ d hm hnone

theorem updateMeshes_isSome_of_mem (cam : Camera) (sel : List Chunk)
    (st : MeshState) (d : Chunk) (hmem : d ∈ sel) :
    (updateMeshes cam sel st d).isSome = true := by
  rcases h : st d with _ | v
  · rw [updateMeshes_mem_none cam sel st d hmem h]
    rfl
  · rw [updateMeshes_some cam sel st d v h]
    rfl

theorem update_apply (t : CDLOD) (cam : Camera) (st : MeshState) (d : Chunk) :
    t.update cam st d =
      if d ∈ t.root.allNodes ∧ d ∉ t.selectLods cam then none
      else updateMeshes cam (t.selectLods cam) st d := rfl

/-- C9: running the per-frame update twice with the same camera yields an
identical selection set (the selection is a pure function of camera and
tree, independent of the mesh state), and on the second call every
selected chunk already holds a mesh, no chunk is created, no chunk is
disposed, and the mesh state is unchanged. -/
theorem spec_c9_update_idempotent (t : CDLOD) (cam : Camera)
    (st : MeshState) :
    (∀ c ∈ t.selectLods cam, (t.update cam st c).isSome = true) ∧
    createdOnUpdate (t.selectLods cam) (t.update cam st) = [] ∧
    disposedOnUpdate t.root (t.selectLods cam)
      (updateMeshes cam (t.selectLods cam) (t.update cam st)) = [] ∧
    t.update cam (t.update cam st) = t.update cam st := by
  have hsome : ∀ c ∈ t.selectLods cam, (t.update cam st c).isSome = true := by
    intro c hc
    rw [update_apply, if_neg (fun h => h.2 hc)]
    exact updateMeshes_isSome_of_mem cam _ st c hc
  refine ⟨hsome, ?_, ?_, ?_⟩
  · rw [createdOnUpdate, List.filter_eq_nil_iff]
    intro c hc
    rcases hx : t.update cam st c with _ | v
    · have := hsome c hc
      rw [hx] at this
      exact absurd this (by simp)
    · simp
  · rw [disposedOnUpdate, List.filter_eq_nil_iff]
    intro c hc
    by_cases hmem : c ∈ t.selectLods cam
    · simp [hmem]
    · have h1 : t.update cam st c = none := by
        rw [update_apply, if_pos ⟨hc, hmem⟩]
      rw [updateMeshes_not_mem cam _ _ c hmem, h1]
      simp
  · funext d
    by_cases hcond : d ∈ t.root.allNodes ∧ d ∉ t.selectLods cam
    · have hl : t.update cam (t.update cam st) d = none := by
        conv_lhs => rw [update_apply]
        exact if_pos hcond
      have hr : t.update cam st d = none := by
        conv_lhs => rw [update_apply]
        exact if_pos hcond
      rw [hl, hr]
    · have hl : t.update cam (t.update cam st) d =
          updateMeshes cam (t.selectLods cam) (t.update cam st) d := by
        conv_lhs => rw [update_apply]
        exact if_neg hcond
      rw [hl]
      by_cases hmem : d ∈ t.selectLods cam
      · have h2 := hsome d hmem
        rcases hx : t.update cam st d with _ | v
        · rw [hx] at h2
          exact absurd h2 (by simp)
        · rw [updateMeshes_some cam _ _ d v hx]
      · rw [updateMeshes_not_mem cam _ _ d hmem]

/-- Witness for C9: on the second update of the small configuration with
the camera at x = 10 no chunk instance is created. -/
theorem spec_c9_update_idempotent_witness :
    createdOnUpdate (cdlodSmall.selectLods camTen)
      (cdlodSmall.update camTen stEmpty) = [] :=
  (spec_c9_update_idempotent cdlodSmall camTen stEmpty).2.1

/-- C10 amended: after update(camera), every selected chunk holds an
attached instance; an instance created during this call has its
cameraPosition uniform bound to the current camera position, while an
instance retained from an earlier frame keeps the uniforms bound when it
was created (updateChunkMesh does not refresh uniforms of existing
meshes). -/
theorem spec_c10_amended_uniform_binding (t : CDLOD) (cam : Camera)
    (st : MeshState) :
    ∀ c ∈ t.selectLods cam,
      (st c = none → t.update cam st c = some cam.position) ∧
      (∀ v, st c = some v → t.update cam st c = some v) := by
  intro c hc
  have hcond : ¬(c ∈ t.root.allNodes ∧ c ∉ t.selectLods cam) :=
    fun h => h.2 hc
  constructor
  · intro h
    rw [update_apply, if_neg hcond]
    exact updateMeshes_mem_none cam _ st c hc h
  · intro v h
    rw [update_apply, if_neg hcond]
    exact updateMeshes_some cam _ st c v h

theorem cdlodSmall_jsGet0 : jsGet cdlodSmall.ranges 0 = some 1 := by
  have h0 := lodRanges_jsGet 1 1 0 (by norm_num) (by norm_num)
  rw [show (0 : ℤ).toNat = 0 from rfl] at h0
  norm_num at h0
  exact h0

theorem cdlodSmall_root_bb :
    cdlodSmall.root.boundingBox = rootBoundingBox 4 := by
  rw [show cdlodSmall.root = buildQuadtree 1 (rootBoundingBox 4) 1 from rfl,
    boundingBox_buildQuadtree]

theorem cdlodSmall_selectLods (cam : Camera)
    (hfr : cam.inFrustum (rootBoundingBox 4) = true)
    (hd : sqrtLt (dist2 (BoundingBox.center (rootBoundingBox 4))
      cam.position) 1 = false) :
    cdlodSmall.selectLods cam = [cdlodSmall.root] := by
  have hw : isChunkWithinLodRange cdlodSmall.ranges cdlodSmall.root cam 0 =
      false := by
    rw [isChunkWithinLodRange, cdlodSmall_jsGet0, cdlodSmall_root_bb]
    exact hd
  rw [CDLOD.selectLods,
    show ((cdlodSmall.lodLevels : ℤ) - 1) = 0 from by norm_num [cdlodSmall]]
  exact traverse_stop _ _ _ _ (by rw [cdlodSmall_root_bb]; exact hfr) hw

theorem cdlodSmall_selectLods_camTen :
    cdlodSmall.selectLods camTen = [cdlodSmall.root] := by
  refine cdlodSmall_selectLods camTen rfl ?_
  simp only [sqrtLt, decide_eq_false_iff_not]
  norm_num [dist2, rootBoundingBox, BoundingBox.center, Vector3.center,
    camTen]

theorem cdlodSmall_selectLods_camEleven :
    cdlodSmall.selectLods camEleven = [cdlodSmall.root] := by
  refine cdlodSmall_selectLods camEleven rfl ?_
  simp only [sqrtLt, decide_eq_false_iff_not]
  norm_num [dist2, rootBoundingBox, BoundingBox.center, Vector3.center,
    camEleven]

/-- C10 counterexample: the claim asserts that after update(camera) the
bound cameraPosition uniform of every selected chunk reflects the camera
of that call, including retained instances.  In the small configuration
the root is selected by both a first update with the camera at (10,0,0)
and a second update with the camera at (11,0,0); after the second update
the root instance still carries cameraPosition (10,0,0), because
updateChunkMesh binds uniforms only when it creates the mesh. -/
theorem spec_c10_counterexample :
    cdlodSmall.root ∈ cdlodSmall.selectLods camEleven ∧
    camEleven.position = ⟨11, 0, 0⟩ ∧
    cdlodSmall.update camEleven
      (cdlodSmall.update camTen stEmpty) cdlodSmall.root =
        some ⟨10, 0, 0⟩ ∧
    some (⟨10, 0, 0⟩ : Vector3) ≠ some (⟨11, 0, 0⟩ : Vector3) := by
  have hmemA : cdlodSmall.root ∈ cdlodSmall.selectLods camTen := by
    rw [cdlodSmall_selectLods_camTen]
    exact List.mem_singleton.mpr rfl
  have hmemB : cdlodSmall.root ∈ cdlodSmall.selectLods camEleven := by
    rw [cdlodSmall_selectLods_camEleven]
    exact List.mem_singleton.mpr rfl
  have hstA : cdlodSmall.update camTen stEmpty cdlodSmall.root =
      some ⟨10, 0, 0⟩ := by
    rw [update_apply, if_neg (fun h => h.2 hmemA)]
    exact updateMeshes_mem_none camTen _ stEmpty _ hmemA rfl
  refine ⟨hmemB, rfl, ?_, ?_⟩
  · rw [update_apply, if_neg (fun h => h.2 hmemB)]
    exact updateMeshes_some camEleven _ _ _ _ hstA
  · intro h
    injection h with h2
    injection h2 with hx hy hz
    exact absurd hx (by norm_num)

/-- Witness for the amended C10: in the small configuration a fresh
update binds the cameraPosition uniform of the newly created root
instance to the current camera position. -/
theorem spec_c10_amended_uniform_binding_witness :
    cdlodSmall.update camTen stEmpty cdlodSmall.root =
      some camTen.position := by
  have hmem : cdlodSmall.root ∈ cdlodSmall.selectLods camTen := by
    rw [cdlodSmall_selectLods_camTen]
    exact List.mem_singleton.mpr rfl
  exact (spec_c10_amended_uniform_binding cdlodSmall camTen stEmpty
    cdlodSmall.root hmem).1 rfl

theorem subXZ_refl (b : BoundingBox) : subXZ b b :=
  ⟨le_refl _, le_refl _, le_refl _, le_refl _⟩

theorem subXZ_trans (a b c : BoundingBox) (h1 : subXZ a b) (h2 : subXZ b c) :
    subXZ a c := by
  obtain ⟨p1, p2, p3, p4⟩ := h1
  obtain ⟨q1, q2, q3, q4⟩ := h2
  exact ⟨le_trans q1 p1, le_trans p2 q2, le_trans q3 p3, le_trans p4 q4⟩

theorem strictInXZ_mono (px pz : ℚ) (b1 b2 : BoundingBox)
    (h : strictInXZ px pz b1) (hsub : subXZ b1 b2) : strictInXZ px pz b2 := by
  obtain ⟨h1, h2, h3, h4⟩ := h
  obtain ⟨s1, s2, s3, s4⟩ := hsub
  exact ⟨lt_of_le_of_lt s1 h1, lt_of_lt_of_le h2 s2,
    lt_of_le_of_lt s3 h3, lt_of_lt_of_le h4 s4⟩

theorem inXZ_mono (px pz : ℚ) (b1 b2 : BoundingBox)
    (h : inXZ px pz b1) (hsub : subXZ b1 b2) : inXZ px pz b2 := by
  obtain ⟨h1, h2, h3, h4⟩ := h
  obtain ⟨s1, s2, s3, s4⟩ := hsub
  exact ⟨le_trans s1 h1, le_trans h2 s2, le_trans s3 h3, le_trans h4 s4⟩

theorem strictXZ_center_mem (b : BoundingBox) (h : strictXZ b) :
    strictInXZ ((b.minimum.x + b.maximum.x) / 2)
      ((b.minimum.z + b.maximum.z) / 2) b := by
  obtain ⟨h1, h2⟩ := h
  exact ⟨by linarith, by linarith, by linarith, by linarith⟩

theorem disjointXZ_symm (b1 b2 : BoundingBox) (h : disjointXZ b1 b2) :
    disjointXZ b2 b1 :=
  fun px pz h2 h1 => h px pz h1 h2

theorem not_disjointXZ_self (b : BoundingBox) (h : strictXZ b) :
    ¬ disjointXZ b b := by
  intro hd
  exact hd _ _ (strictXZ_center_mem b h) (strictXZ_center_mem b h)

theorem wfXZ_of_strict (b : BoundingBox) (h : strictXZ b) : wfXZ b :=
  ⟨le_of_lt h.1, le_of_lt h.2⟩

theorem quadrant_wf (th : ℚ) (bb : BoundingBox) (hwf : wfXZ bb) :
    ∀ q ∈ quadrantBoxes th bb, wfXZ q := by
  obtain ⟨h1, h2⟩ := hwf
  intro q hq
  simp only [quadrantBoxes, List.mem_cons, List.not_mem_nil, or_false] at hq
  rcases hq with h | h | h | h <;> subst h <;>
    simp only [wfXZ, Vector3.center] <;> constructor <;> linarith

theorem quadrant_strict (th : ℚ) (bb : BoundingBox) (hst : strictXZ bb) :
    ∀ q ∈ quadrantBoxes th bb, strictXZ q := by
  obtain ⟨h1, h2⟩ := hst
  intro q hq
  simp only [quadrantBoxes, List.mem_cons, List.not_mem_nil, or_false] at hq
  rcases hq with h | h | h | h <;> subst h <;>
    simp only [strictXZ, Vector3.center] <;> constructor <;> linarith

theorem quadrant_sub (th : ℚ) (bb : BoundingBox) (hwf : wfXZ bb) :
    ∀ q ∈ quadrantBoxes th bb, subXZ q bb := by
  obtain ⟨h1, h2⟩ := hwf
  intro q hq
  simp only [quadrantBoxes, List.mem_cons, List.not_mem_nil, or_false] at hq
  rcases hq with h | h | h | h <;> subst h <;>
    simp only [subXZ, Vector3.center] <;>
    refine ⟨by linarith, by linarith, by linarith, by linarith⟩

theorem disjointXZ_of_x (a b : BoundingBox) (h : a.maximum.x ≤ b.minimum.x) :
    disjointXZ a b := by
  intro px pz h1 h2
  obtain ⟨a1, a2, a3, a4⟩ := h1
  obtain ⟨b1, b2, b3, b4⟩ := h2
  linarith

theorem disjointXZ_of_z (a b : BoundingBox) (h : a.maximum.z ≤ b.minimum.z) :
    disjointXZ a b := by
  intro px pz h1 h2
  obtain ⟨a1, a2, a3, a4⟩ := h1
  obtain ⟨b1, b2, b3, b4⟩ := h2
  linarith

theorem quadrant_pairwise (th : ℚ) (bb : BoundingBox) :
    (quadrantBoxes th bb).Pairwise disjointXZ := by
  simp only [quadrantBoxes]
  refine List.Pairwise.cons ?_ (List.Pairwise.cons ?_
    (List.Pairwise.cons ?_ (List.Pairwise.cons ?_ List.Pairwise.nil)))
  · intro a ha
    simp only [List.mem_cons, List.not_mem_nil, or_false] at ha
    rcases ha with h | h | h <;> subst h
    · exact disjointXZ_of_x _ _ (le_refl _)
    · exact disjointXZ_of_z _ _ (le_refl _)
    · exact disjointXZ_of_x _ _ (le_refl _)
  · intro a ha
    simp only [List.mem_cons, List.not_mem_nil, or_false] at ha
    rcases ha with h | h <;> subst h
    · exact disjointXZ_symm _ _ (disjointXZ_of_x _ _ (le_refl _))
    · exact disjointXZ_of_z _ _ (le_refl _)
  · intro a ha
    simp only [List.mem_cons, List.not_mem_nil, or_false] at ha
    subst ha
    exact disjointXZ_of_x _ _ (le_refl _)
  · intro a ha
    exact absurd ha (List.not_mem_nil _)

theorem quadrant_eq_or_disjoint (th : ℚ) (bb : BoundingBox) (q q2 : BoundingBox)
    (hq : q ∈ quadrantBoxes th bb) (hq2 : q2 ∈ quadrantBoxes th bb) :
    q = q2 ∨ disjointXZ q q2 := by
  by_cases heq : q = q2
  · exact Or.inl heq
  · exact Or.inr (List.Pairwise.forall
      (fun a b h => disjointXZ_symm a b h) (quadrant_pairwise th bb)
      hq hq2 heq)

theorem quadrant_not_superset (th : ℚ) (bb : BoundingBox) (hst : strictXZ bb) :
    ∀ q ∈ quadrantBoxes th bb, ¬ subXZ bb q := by
  obtain ⟨h1, h2⟩ := hst
  intro q hq hsub
  simp only [quadrantBoxes, List.mem_cons, List.not_mem_nil, or_false] at hq
  rcases hq with h | h | h | h <;> subst h <;>
    simp only [subXZ, Vector3.center] at hsub <;>
    obtain ⟨s1, s2, s3, s4⟩ := hsub <;> linarith

theorem quadrant_cover (th : ℚ) (bb : BoundingBox) (hwf : wfXZ bb)
    (px pz : ℚ) (hp : inXZ px pz bb) :
    ∃ q ∈ quadrantBoxes th bb, inXZ px pz q := by
  obtain ⟨hw1, hw2⟩ := hwf
  obtain ⟨p1, p2, p3, p4⟩ := hp
  by_cases hx : px ≤ (bb.minimum.x + bb.maximum.x) / 2
  · by_cases hz : pz ≤ (bb.minimum.z + bb.maximum.z) / 2
    · refine ⟨⟨⟨bb.minimum.x, 0, bb.minimum.z⟩,
        ⟨(Vector3.center bb.minimum bb.maximum).x, th,
          (Vector3.center bb.minimum bb.maximum).z⟩⟩,
        by simp [quadrantBoxes], ?_⟩
      simp only [inXZ, Vector3.center]
      exact ⟨p1, hx, p3, hz⟩
    · push_neg at hz
      refine ⟨⟨⟨bb.minimum.x, 0, (Vector3.center bb.minimum bb.maximum).z⟩,
        ⟨(Vector3.center bb.minimum bb.maximum).x, th, bb.maximum.z⟩⟩,
        by simp [quadrantBoxes], ?_⟩
      simp only [inXZ, Vector3.center]
      exact ⟨p1, hx, le_of_lt hz, p4⟩
  · push_neg at hx
    by_cases hz : pz ≤ (bb.minimum.z + bb.maximum.z) / 2
    · refine ⟨⟨⟨(Vector3.center bb.minimum bb.maximum).x, 0, bb.minimum.z⟩,
        ⟨bb.maximum.x, th, (Vector3.center bb.minimum bb.maximum).z⟩⟩,
        by simp [quadrantBoxes], ?_⟩
      simp only [inXZ, Vector3.center]
      exact ⟨le_of_lt hx, p2, p3, hz⟩
    · push_neg at hz
      refine ⟨⟨⟨(Vector3.center bb.minimum bb.maximum).x, 0,
          (Vector3.center bb.minimum bb.maximum).z⟩,
        ⟨bb.maximum.x, th, bb.maximum.z⟩⟩,
        by simp [quadrantBoxes], ?_⟩
      simp only [inXZ, Vector3.center]
      exact ⟨le_of_lt hx, p2, le_of_lt hz, p4⟩

def mem_allNodes_of_mem_toList :
    ∀ (cs : ChunkList) (child : Chunk), child ∈ cs.toList →
      ∀ y ∈ child.allNodes, y ∈ ChunkList.allNodes cs
  | .nil, child => by
    intro h
    exact absurd h (List.not_mem_nil child)
  | .cons a as, child => by
    intro h y hy
    rw [ChunkList.toList, List.mem_cons] at h
    rw [ChunkList.allNodes, List.mem_append]
    rcases h with h | h
    · subst h
      exact Or.inl hy
    · exact Or.inr (mem_allNodes_of_mem_toList as child h y hy)

theorem traverseChildren_ofList_mem (r : List ℚ) (cam : Camera)
    (l : List Chunk) (b : ℤ) (x : Chunk) :
    x ∈ traverseChildren r cam (ChunkList.ofList l) b ↔
      ∃ c ∈ l, x ∈ traverseAndSelect r cam c b := by
  induction l with
  | nil => simp [ChunkList.ofList, traverseChildren]
  | cons c cs ih =>
    rw [ChunkList.ofList, traverseChildren, List.mem_append, ih]
    constructor
    · rintro (hx | ⟨a, ha, hx⟩)
      · exact ⟨c, List.mem_cons_self c cs, hx⟩
      · exact ⟨a, List.mem_cons_of_mem c ha, hx⟩
    · rintro ⟨a, ha, hx⟩
      rcases List.mem_cons.mp ha with h | h
      · subst h
        exact Or.inl hx
      · exact Or.inr ⟨a, h, hx⟩

mutual
/-- Every chunk in the draw list produced by the traversal of a node is a
node of that subtree. -/
def traverse_mem_allNodes :
    ∀ (r : List ℚ) (cam : Camera) (c : Chunk) (b : ℤ) (x : Chunk),
      x ∈ traverseAndSelect r cam c b → x ∈ c.allNodes
  | r, cam, .mk bb lvl cs, b, x => by
    intro hx
    rw [traverseAndSelect] at hx
    by_cases hf : cam.inFrustum bb = false
    · rw [if_pos hf] at hx
      exact absurd hx (List.not_mem_nil x)
    · rw [if_neg hf] at hx
      by_cases hw : isChunkWithinLodRange r (.mk bb lvl cs) cam b = false
      · rw [if_pos hw, List.mem_singleton] at hx
        subst hx
        exact self_mem_allNodes _
      · rw [if_neg hw] at hx
        rw [Chunk.allNodes]
        exact List.mem_cons_of_mem _
          (traverseChildren_mem_allNodes r cam cs (b - 1) x hx)
/-- Every chunk in the draw list produced by traversing a child list is a
node of one of its trees. -/
def traverseChildren_mem_allNodes :
    ∀ (r : List ℚ) (cam : Camera) (cs : ChunkList) (b : ℤ) (x : Chunk),
      x ∈ traverseChildren r cam cs b → x ∈ ChunkList.allNodes cs
  | r, cam, .nil, b, x => by
    intro hx
    simp only [traverseChildren] at hx
    exact absurd hx (List.not_mem_nil x)
  | r, cam, .cons c cs, b, x => by
    intro hx
    rw [traverseChildren, List.mem_append] at hx
    rw [ChunkList.allNodes, List.mem_append]
    rcases hx with hx | hx
    · exact Or.inl (traverse_mem_allNodes r cam c b x hx)
    · exact Or.inr (traverseChildren_mem_allNodes r cam cs b x hx)
end

theorem aux_allNodes_sub_strict (th : ℚ) :
    ∀ (n : ℕ) (bb : BoundingBox), strictXZ bb →
      ∀ x ∈ (buildQuadtreeAux th n bb).allNodes,
        subXZ x.boundingBox bb ∧ strictXZ x.boundingBox := by
  intro n
  induction n with
  | zero =>
    intro bb hst x hx
    simp only [buildQuadtreeAux, Chunk.allNodes, ChunkList.allNodes,
      List.mem_singleton] at hx
    subst hx
    exact ⟨subXZ_refl bb, hst⟩
  | succ n ih =>
    intro bb hst x hx
    simp only [buildQuadtreeAux, Chunk.allNodes, List.mem_cons] at hx
    rcases hx with hx | hx
    · subst hx
      exact ⟨subXZ_refl bb, hst⟩
    · rw [mem_allNodes_ofList] at hx
      obtain ⟨a, ha, hxa⟩ := hx
      rw [List.mem_map] at ha
      obtain ⟨q, hq, rfl⟩ := ha
      obtain ⟨hsub, hstx⟩ := ih q (quadrant_strict th bb hst q hq) x hxa
      exact ⟨subXZ_trans _ _ _ hsub
        (quadrant_sub th bb (wfXZ_of_strict bb hst) q hq), hstx⟩

theorem aux_sel_sub (r : List ℚ) (cam : Camera) (th : ℚ) :
    ∀ (n : ℕ) (bb : BoundingBox), wfXZ bb → ∀ (b : ℤ) (x : Chunk),
      x ∈ traverseAndSelect r cam (buildQuadtreeAux th n bb) b →
      subXZ x.boundingBox bb := by
  intro n
  induction n with
  | zero =>
    intro bb hwf b x hx
    rw [show buildQuadtreeAux th 0 bb = Chunk.mk bb 0 .nil from rfl,
      traverseAndSelect] at hx
    by_cases hf : cam.inFrustum bb = false
    · rw [if_pos hf] at hx
      exact absurd hx (List.not_mem_nil x)
    · rw [if_neg hf] at hx
      by_cases hw : isChunkWithinLodRange r (Chunk.mk bb 0 .nil) cam b = false
      · rw [if_pos hw, List.mem_singleton] at hx
        subst hx
        exact subXZ_refl bb
      · rw [if_neg hw] at hx
        simp only [traverseChildren] at hx
        exact absurd hx (List.not_mem_nil x)
  | succ n ih =>
    intro bb hwf b x hx
    rw [show buildQuadtreeAux th (n + 1) bb =
        Chunk.mk bb (n : ℤ) (ChunkList.ofList
          ((quadrantBoxes th bb).map (fun q => buildQuadtreeAux th n q)))
      from rfl, traverseAndSelect] at hx
    by_cases hf : cam.inFrustum bb = false
    · rw [if_pos hf] at hx
      exact absurd hx (List.not_mem_nil x)
    · rw [if_neg hf] at hx
      by_cases hw : isChunkWithinLodRange r
          (Chunk.mk bb (n : ℤ) (ChunkList.ofList
            ((quadrantBoxes th bb).map (fun q => buildQuadtreeAux th n q))))
          cam b = false
      · rw [if_pos hw, List.mem_singleton] at hx
        subst hx
        exact subXZ_refl bb
      · rw [if_neg hw, traverseChildren_ofList_mem] at hx
        obtain ⟨c, hc, hxc⟩ := hx
        rw [List.mem_map] at hc
        obtain ⟨q, hq, rfl⟩ := hc
        exact subXZ_trans _ _ _
          (ih q (quadrant_wf th bb hwf q hq) (b - 1) x hxc)
          (quadrant_sub th bb hwf q hq)

theorem traverseChildren_pairwise_of (r : List ℚ) (cam : Camera) (th : ℚ)
    (n : ℕ)
    (hIH : ∀ (q : BoundingBox), strictXZ q → ∀ b : ℤ,
      (traverseAndSelect r cam (buildQuadtreeAux th n q) b).Pairwise
        (fun x y => disjointXZ x.boundingBox y.boundingBox)) :
    ∀ (qs : List BoundingBox), qs.Pairwise disjointXZ →
      (∀ q ∈ qs, strictXZ q) → ∀ b : ℤ,
      (traverseChildren r cam
        (ChunkList.ofList (qs.map (fun q => buildQuadtreeAux th n q)))
        b).Pairwise
        (fun x y => disjointXZ x.boundingBox y.boundingBox) := by
  intro qs
  induction qs with
  | nil =>
    intro hp hs b
    simp [ChunkList.ofList, traverseChildren]
  | cons q qs ih =>
    intro hp hs b
    rw [List.map_cons, ChunkList.ofList, traverseChildren,
      List.pairwise_append]
    obtain ⟨hhead, htail⟩ := List.pairwise_cons.mp hp
    refine ⟨hIH q (hs q (List.mem_cons_self q qs)) b,
      ih htail (fun a ha => hs a (List.mem_cons_of_mem q ha)) b, ?_⟩
    intro x hx y hy
    rw [traverseChildren_ofList_mem] at hy
    obtain ⟨c, hc, hyc⟩ := hy
    rw [List.mem_map] at hc
    obtain ⟨q2, hq2, rfl⟩ := hc
    have hxs : subXZ x.boundingBox q :=
      aux_sel_sub r cam th n q
        (wfXZ_of_strict q (hs q (List.mem_cons_self q qs))) b x hx
    have hys : subXZ y.boundingBox q2 :=
      aux_sel_sub r cam th n q2
        (wfXZ_of_strict q2 (hs q2 (List.mem_cons_of_mem q hq2))) b y hyc
    intro px pz h1 h2
    exact hhead q2 hq2 px pz (strictInXZ_mono _ _ _ _ h1 hxs)
      (strictInXZ_mono _ _ _ _ h2 hys)

theorem aux_sel_pairwise (r : List ℚ) (cam : Camera) (th : ℚ) :
    ∀ (n : ℕ) (bb : BoundingBox), strictXZ bb → ∀ b : ℤ,
      (traverseAndSelect r cam (buildQuadtreeAux th n bb) b).Pairwise
        (fun x y => disjointXZ x.boundingBox y.boundingBox) := by
  intro n
  induction n with
  | zero =>
    intro bb hst b
    rw [show buildQuadtreeAux th 0 bb = Chunk.mk bb 0 .nil from rfl,
      traverseAndSelect]
    by_cases hf : cam.inFrustum bb = false
    · rw [if_pos hf]
      exact List.Pairwise.nil
    · rw [if_neg hf]
      by_cases hw : isChunkWithinLodRange r (Chunk.mk bb 0 .nil) cam b = false
      · rw [if_pos hw]
        simp
      · rw [if_neg hw]
        simp only [traverseChildren]
        exact List.Pairwise.nil
  | succ n ih =>
    intro bb hst b
    rw [show buildQuadtreeAux th (n + 1) bb =
        Chunk.mk bb (n : ℤ) (ChunkList.ofList
          ((quadrantBoxes th bb).map (fun q => buildQuadtreeAux th n q)))
      from rfl, traverseAndSelect]
    by_cases hf : cam.inFrustum bb = false
    · rw [if_pos hf]
      exact List.Pairwise.nil
    · rw [if_neg hf]
      by_cases hw : isChunkWithinLodRange r
          (Chunk.mk bb (n : ℤ) (ChunkList.ofList
            ((quadrantBoxes th bb).map (fun q => buildQuadtreeAux th n q))))
          cam b = false
      · rw [if_pos hw]
        simp
      · rw [if_neg hw]
        exact traverseChildren_pairwise_of r cam th n ih
          (quadrantBoxes th bb) (quadrant_pairwise th bb)
          (quadrant_strict th bb hst) (b - 1)

theorem aux_sel_cover (r : List ℚ) (cam : Camera) (th : ℚ) :
    ∀ (n : ℕ) (bb : BoundingBox), wfXZ bb → ∀ px pz, inXZ px pz bb →
      (∀ c ∈ (buildQuadtreeAux th n bb).allNodes,
        inXZ px pz c.boundingBox → cam.inFrustum c.boundingBox = true) →
      ∃ x, x ∈ traverseAndSelect r cam (buildQuadtreeAux th n bb)
          ((n : ℤ) - 2) ∧
        inXZ px pz x.boundingBox := by
  intro n
  induction n with
  | zero =>
    intro bb hwf px pz hp hfr
    have hf : cam.inFrustum bb = true :=
      hfr _ (self_mem_allNodes _) hp
    have hw : isChunkWithinLodRange r (buildQuadtreeAux th 0 bb) cam
        (((0 : ℕ) : ℤ) - 2) = false := by
      rw [isChunkWithinLodRange, jsGet_neg _ _ (by norm_num)]
    refine ⟨buildQuadtreeAux th 0 bb, ?_, hp⟩
    rw [traverse_stop r cam _ _ (by exact hf) hw]
    exact List.mem_singleton.mpr rfl
  | succ n ih =>
    intro bb hwf px pz hp hfr
    have hf : cam.inFrustum bb = true :=
      hfr _ (self_mem_allNodes _) hp
    by_cases hw : isChunkWithinLodRange r (buildQuadtreeAux th (n + 1) bb)
        cam ((((n : ℕ) + 1 : ℕ) : ℤ) - 2) = false
    · refine ⟨buildQuadtreeAux th (n + 1) bb, ?_, hp⟩
      rw [traverse_stop r cam _ _ (by exact hf) hw]
      exact List.mem_singleton.mpr rfl
    · have hw2 : isChunkWithinLodRange r (buildQuadtreeAux th (n + 1) bb)
          cam ((((n : ℕ) + 1 : ℕ) : ℤ) - 2) = true := by
        revert hw
        cases isChunkWithinLodRange r (buildQuadtreeAux th (n + 1) bb)
          cam ((((n : ℕ) + 1 : ℕ) : ℤ) - 2) <;> simp
      obtain ⟨q, hq, hpq⟩ := quadrant_cover th bb hwf px pz hp
      have hband : (((((n : ℕ) + 1 : ℕ) : ℤ) - 2) - 1) = ((n : ℕ) : ℤ) - 2 := by
        push_cast
        ring
      have hfr2 : ∀ c ∈ (buildQuadtreeAux th n q).allNodes,
          inXZ px pz c.boundingBox → cam.inFrustum c.boundingBox = true := by
        intro c hc hcin
        refine hfr c ?_ hcin
        rw [show buildQuadtreeAux th (n + 1) bb =
            Chunk.mk bb (n : ℤ) (ChunkList.ofList
              ((quadrantBoxes th bb).map (fun q2 => buildQuadtreeAux th n q2)))
          from rfl, Chunk.allNodes]
        refine List.mem_cons_of_mem _ ?_
        rw [mem_allNodes_ofList]
        exact ⟨buildQuadtreeAux th n q, List.mem_map.mpr ⟨q, hq, rfl⟩, hc⟩
      obtain ⟨x, hxsel, hxin⟩ := ih q (quadrant_wf th bb hwf q hq) px pz hpq hfr2
      refine ⟨x, ?_, hxin⟩
      rw [traverse_rec r cam _ _ (by exact hf) hw2,
        show (buildQuadtreeAux th (n + 1) bb).children =
          ChunkList.ofList
            ((quadrantBoxes th bb).map (fun q2 => buildQuadtreeAux th n q2))
          from rfl, hband, traverseChildren_ofList_mem]
      exact ⟨buildQuadtreeAux th n q, List.mem_map.mpr ⟨q, hq, rfl⟩, hxsel⟩

theorem rootPath_cons_inv (bb : BoundingBox) (l : ℤ) (cs : ChunkList)
    (p : List Chunk) (h : RootPath (Chunk.mk bb l cs) p) (hne : cs ≠ .nil) :
    ∃ child p2, child ∈ cs.toList ∧ RootPath child p2 ∧
      p = Chunk.mk bb l cs :: p2 := by
  cases h with
  | leaf => exact absurd rfl hne
  | cons _ _ _ child p2 hchild hp2 => exact ⟨child, p2, hchild, hp2, rfl⟩

theorem rootPath_leaf_inv (bb : BoundingBox) (l : ℤ) (p : List Chunk)
    (h : RootPath (Chunk.mk bb l .nil) p) : p = [Chunk.mk bb l .nil] := by
  cases h with
  | leaf => rfl
  | cons _ _ _ child p2 hchild hp2 =>
    rw [ChunkList.toList] at hchild
    exact absurd hchild (List.not_mem_nil child)

theorem rootPath_sub (c : Chunk) (p : List Chunk) (h : RootPath c p) :
    ∀ x ∈ p, x ∈ c.allNodes := by
  induction h with
  | leaf bb l =>
    intro x hx
    rw [List.mem_singleton] at hx
    subst hx
    exact self_mem_allNodes _
  | cons bb l cs child p2 hchild hp2 ih =>
    intro x hx
    rcases List.mem_cons.mp hx with h | h
    · subst h
      exact self_mem_allNodes _
    · rw [Chunk.allNodes]
      exact List.mem_cons_of_mem _
        (mem_allNodes_of_mem_toList cs child hchild x (ih x h))

theorem aux_succ_path_inv (th : ℚ) (n : ℕ) (bb : BoundingBox)
    (p : List Chunk) (h : RootPath (buildQuadtreeAux th (n + 1) bb) p) :
    ∃ child p2,
      child ∈ (quadrantBoxes th bb).map (fun q => buildQuadtreeAux th n q) ∧
      RootPath child p2 ∧ p = buildQuadtreeAux th (n + 1) bb :: p2 := by
  have h2 := rootPath_cons_inv bb (n : ℤ)
    (ChunkList.ofList
      ((quadrantBoxes th bb).map (fun q => buildQuadtreeAux th n q)))
    p (by exact h) (by simp [quadrantBoxes, List.map, ChunkList.ofList])
  obtain ⟨child, p2, hchild, hp2, hpeq⟩ := h2
  rw [ChunkList.toList_ofList] at hchild
  exact ⟨child, p2, hchild, hp2, hpeq⟩

theorem aux_exactone (r : List ℚ) (cam : Camera) (th : ℚ) :
    ∀ (n : ℕ) (bb : BoundingBox), strictXZ bb → ∀ p,
      RootPath (buildQuadtreeAux th n bb) p →
      (∀ c ∈ p, cam.inFrustum c.boundingBox = true) →
      ∃ x, x ∈ p ∧
        x ∈ traverseAndSelect r cam (buildQuadtreeAux th n bb)
          ((n : ℤ) - 2) ∧
        ∀ y, y ∈ p →
          y ∈ traverseAndSelect r cam (buildQuadtreeAux th n bb)
            ((n : ℤ) - 2) →
          y = x := by
  intro n
  induction n with
  | zero =>
    intro bb hst p hpath hfr
    have hp : p = [Chunk.mk bb 0 .nil] :=
      rootPath_leaf_inv bb 0 p (by exact hpath)
    subst hp
    have hf : cam.inFrustum bb = true := hfr _ (List.mem_singleton.mpr rfl)
    have hw : isChunkWithinLodRange r (buildQuadtreeAux th 0 bb) cam
        (((0 : ℕ) : ℤ) - 2) = false := by
      rw [isChunkWithinLodRange, jsGet_neg _ _ (by norm_num)]
    have hstop := traverse_stop r cam (buildQuadtreeAux th 0 bb) _
      (by exact hf) hw
    refine ⟨Chunk.mk bb 0 .nil, List.mem_singleton.mpr rfl, ?_, ?_⟩
    · rw [hstop]
      exact List.mem_singleton.mpr rfl
    · intro y hy hysel
      rw [List.mem_singleton] at hy
      exact hy
  | succ n ih =>
    intro bb hst p hpath hfr
    obtain ⟨child, p2, hchild, hpath2, hpeq⟩ :=
      aux_succ_path_inv th n bb p hpath
    subst hpeq
    rw [List.mem_map] at hchild
    obtain ⟨q, hq, hchildeq⟩ := hchild
    subst hchildeq
    have hf : cam.inFrustum bb = true := hfr _ (List.mem_cons_self _ _)
    by_cases hw : isChunkWithinLodRange r (buildQuadtreeAux th (n + 1) bb)
        cam ((((n : ℕ) + 1 : ℕ) : ℤ) - 2) = false
    · have hstop := traverse_stop r cam (buildQuadtreeAux th (n + 1) bb) _
        (by exact hf) hw
      refine ⟨buildQuadtreeAux th (n + 1) bb, List.mem_cons_self _ _, ?_, ?_⟩
      · rw [hstop]
        exact List.mem_singleton.mpr rfl
      · intro y hy hysel
        rw [hstop, List.mem_singleton] at hysel
        exact hysel
    · have hw2 : isChunkWithinLodRange r (buildQuadtreeAux th (n + 1) bb)
          cam ((((n : ℕ) + 1 : ℕ) : ℤ) - 2) = true := by
        revert hw
        cases isChunkWithinLodRange r (buildQuadtreeAux th (n + 1) bb)
          cam ((((n : ℕ) + 1 : ℕ) : ℤ) - 2) <;> simp
      have hband : (((((n : ℕ) + 1 : ℕ) : ℤ) - 2) - 1) = ((n : ℕ) : ℤ) - 2 := by
        push_cast
        ring
      have hfr2 : ∀ c ∈ p2, cam.inFrustum c.boundingBox = true :=
        fun c hc => hfr c (List.mem_cons_of_mem _ hc)
      obtain ⟨x, hxp2, hxsel, huniq⟩ :=
        ih q (quadrant_strict th bb hst q hq) p2 hpath2 hfr2
      have hrec := traverse_rec r cam (buildQuadtreeAux th (n + 1) bb) _
        (by exact hf) hw2
      have hchildren : (buildQuadtreeAux th (n + 1) bb).children =
          ChunkList.ofList
            ((quadrantBoxes th bb).map (fun q2 => buildQuadtreeAux th n q2)) :=
        rfl
      refine ⟨x, List.mem_cons_of_mem _ hxp2, ?_, ?_⟩
      · rw [hrec, hchildren, hband, traverseChildren_ofList_mem]
        exact ⟨buildQuadtreeAux th n q, List.mem_map.mpr ⟨q, hq, rfl⟩, hxsel⟩
      · intro y hy hysel
        rw [hrec, hchildren, hband, traverseChildren_ofList_mem] at hysel
        obtain ⟨c2, hc2, hyc2⟩ := hysel
        rw [List.mem_map] at hc2
        obtain ⟨q2, hq2, rfl⟩ := hc2
        have hysub : subXZ y.boundingBox q2 :=
          aux_sel_sub r cam th n q2
            (wfXZ_of_strict q2 (quadrant_strict th bb hst q2 hq2)) _ y hyc2
        rcases List.mem_cons.mp hy with hyh | hyp2
        · exfalso
          apply quadrant_not_superset th bb hst q2 hq2
          rw [hyh] at hysub
          exact hysub
        · have hyall := rootPath_sub _ _ hpath2 y hyp2
          obtain ⟨hysubq, hystrict⟩ :=
            aux_allNodes_sub_strict th n q (quadrant_strict th bb hst q hq)
              y hyall
          rcases quadrant_eq_or_disjoint th bb q q2 hq hq2 with heq | hdisj
          · subst heq
            exact huniq y hyp2 hyc2
          · exfalso
            have hcpt := strictXZ_center_mem y.boundingBox hystrict
            exact hdisj _ _ (strictInXZ_mono _ _ _ _ hcpt hysubq)
              (strictInXZ_mono _ _ _ _ hcpt hysub)

/-- C1 amended: for every camera pose (any position and any frustum
test), the chunks returned by selectLods overlap at most on shared
boundary faces (their open X/Z interiors are pairwise disjoint; the
closed boxes of adjacent selected chunks do share boundary points), no
chunk appears twice, along every root-to-leaf path whose nodes all pass
the frustum test exactly one node is selected, and the selected chunks
cover every point of the root footprint all of whose enclosing tree
boxes pass the frustum test. -/
theorem spec_c1_amended_disjoint_cover (t : CDLOD) (cam : Camera)
    (hs : 0 < t.terrainSize) :
    (t.selectLods cam).Pairwise
      (fun x y => disjointXZ x.boundingBox y.boundingBox) ∧
    (t.selectLods cam).Nodup ∧
    (∀ p, RootPath t.root p →
      (∀ c ∈ p, cam.inFrustum c.boundingBox = true) →
      ∃ x, x ∈ p ∧ x ∈ t.selectLods cam ∧
        ∀ y, y ∈ p → y ∈ t.selectLods cam → y = x) ∧
    (∀ px pz, inXZ px pz (rootBoundingBox t.terrainSize) →
      (∀ c, c ∈ t.root.allNodes → inXZ px pz c.boundingBox →
        cam.inFrustum c.boundingBox = true) →
      ∃ x, x ∈ t.selectLods cam ∧ inXZ px pz x.boundingBox) := by
  have hstrict : strictXZ (rootBoundingBox t.terrainSize) := by
    simp only [strictXZ, rootBoundingBox]
    constructor <;> linarith
  have hfuel : ((t.lodLevels : ℤ) + 1).toNat = t.lodLevels + 1 := by omega
  have hroot : t.root = buildQuadtreeAux t.terrainHeight (t.lodLevels + 1)
      (rootBoundingBox t.terrainSize) := by
    rw [CDLOD.root, buildQuadtree, hfuel]
  have hband : ((t.lodLevels : ℤ) - 1) = ((t.lodLevels + 1 : ℕ) : ℤ) - 2 := by
    push_cast
    ring
  have hsel : t.selectLods cam =
      traverseAndSelect t.ranges cam
        (buildQuadtreeAux t.terrainHeight (t.lodLevels + 1)
          (rootBoundingBox t.terrainSize))
        (((t.lodLevels + 1 : ℕ) : ℤ) - 2) := by
    rw [CDLOD.selectLods, hroot, hband]
  have hpair : (t.selectLods cam).Pairwise
      (fun x y => disjointXZ x.boundingBox y.boundingBox) := by
    rw [hsel]
    exact aux_sel_pairwise _ _ _ _ _ hstrict _
  refine ⟨hpair, ?_, ?_, ?_⟩
  · refine List.Pairwise.imp_of_mem ?_ hpair
    intro a b ha hb hR heq
    subst heq
    rw [hsel] at ha
    have hall := traverse_mem_allNodes _ _ _ _ _ ha
    obtain ⟨hsub, hstricta⟩ :=
      aux_allNodes_sub_strict t.terrainHeight _ _ hstrict a hall
    exact not_disjointXZ_self _ hstricta hR
  · intro p hpath hfr
    rw [hroot] at hpath
    obtain ⟨x, hxp, hxsel, huniq⟩ :=
      aux_exactone t.ranges cam t.terrainHeight (t.lodLevels + 1) _
        hstrict p hpath hfr
    refine ⟨x, hxp, by rw [hsel]; exact hxsel, ?_⟩
    intro y hyp hysel
    rw [hsel] at hysel
    exact huniq y hyp hysel
  · intro px pz hp hfr
    rw [hroot] at hfr
    obtain ⟨x, hxsel, hxin⟩ :=
      aux_sel_cover t.ranges cam t.terrainHeight (t.lodLevels + 1) _
        (wfXZ_of_strict _ hstrict) px pz hp hfr
    exact ⟨x, by rw [hsel]; exact hxsel, hxin⟩

/-- Witness for the amended C1: the selection of the wide configuration
from a camera at the origin contains no duplicate chunk. -/
theorem spec_c1_amended_disjoint_cover_witness :
    (cdlodWide.selectLods camOrigin).Nodup :=
  (spec_c1_amended_disjoint_cover cdlodWide camOrigin
    (by norm_num [cdlodWide])).2.1

/-- C1 counterexample: the claim asserts that the bounding boxes of two
distinct selected chunks have empty intersection; in the wide
configuration a camera at the origin refines the root, selecting its
four children, and the first two selected chunks are adjacent siblings
whose closed boxes share the face x = 0: the point (0, 0, -1) lies in
both. -/
theorem spec_c1_counterexample :
    ((cdlodWide.selectLods camOrigin).map Chunk.boundingBox).take 2 =
      [⟨⟨-2, 0, -2⟩, ⟨0, 1, 0⟩⟩, ⟨⟨0, 0, -2⟩, ⟨2, 1, 0⟩⟩] ∧
    (⟨⟨-2, 0, -2⟩, ⟨0, 1, 0⟩⟩ : BoundingBox) ≠ ⟨⟨0, 0, -2⟩, ⟨2, 1, 0⟩⟩ ∧
    inBox ⟨0, 0, -1⟩ ⟨⟨-2, 0, -2⟩, ⟨0, 1, 0⟩⟩ ∧
    inBox ⟨0, 0, -1⟩ ⟨⟨0, 0, -2⟩, ⟨2, 1, 0⟩⟩ := by
  refine ⟨?_, by norm_num [BoundingBox.mk.injEq, Vector3.mk.injEq],
    by norm_num [inBox], by norm_num [inBox]⟩
  have hj : jsGet cdlodWide.ranges 0 = some 100 := by
    have h0 := lodRanges_jsGet 100 1 0 (by norm_num) (by norm_num)
    rw [show (0 : ℤ).toNat = 0 from rfl] at h0
    norm_num at h0
    exact h0
  have hbb : cdlodWide.root.boundingBox = rootBoundingBox 4 := by
    rw [show cdlodWide.root = buildQuadtree 1 (rootBoundingBox 4) 1 from rfl,
      boundingBox_buildQuadtree]
  have hwithin : isChunkWithinLodRange cdlodWide.ranges cdlodWide.root
      camOrigin 0 = true := by
    rw [isChunkWithinLodRange, hj, hbb]
    simp only [sqrtLt, decide_eq_true_eq]
    norm_num [dist2, rootBoundingBox, BoundingBox.center, Vector3.center,
      camOrigin]
  have hstop : ∀ c : Chunk,
      traverseAndSelect cdlodWide.ranges camOrigin c (-1 : ℤ) = [c] := by
    intro c
    refine traverse_stop _ _ _ _ rfl ?_
    rw [isChunkWithinLodRange, jsGet_neg _ _ (by norm_num)]
  have hsel : cdlodWide.selectLods camOrigin =
      traverseChildren cdlodWide.ranges camOrigin cdlodWide.root.children
        ((0 : ℤ) - 1) := by
    rw [CDLOD.selectLods,
      show ((cdlodWide.lodLevels : ℤ) - 1) = 0 from by norm_num [cdlodWide]]
    exact traverse_rec _ _ _ _ rfl hwithin
  rw [hsel,
    show cdlodWide.root.children =
      ChunkList.ofList ((quadrantBoxes 1 (rootBoundingBox 4)).map
        (fun q => buildQuadtree 1 q (1 - 1))) from by
      rw [show cdlodWide.root = buildQuadtree 1 (rootBoundingBox 4) 1
        from rfl, buildQuadtree_nonneg _ _ _ (by norm_num), Chunk.children]]
  norm_num [quadrantBoxes, rootBoundingBox, Vector3.center, List.map_cons,
    ChunkList.ofList, traverseChildren, hstop, boundingBox_buildQuadtree]

end CDLODSpec
